import Mathlib

/-!
# SymTable: the hash-table symbol table of `symtablehash.c`

A shallow embedding of the hash-table implementation of the symbol table
(`src/symtablehash.c`, interface `src/symtable.h`) and proofs about it, with the
linked-list implementation (`src/symtablelist.c`) embedded alongside for the
comparison of the two.

Data model of the embedding.

* A key is the content of a C string: the `char` values before the
  terminating NUL.  `strcmp(a, b) == 0` is equality of these lists.  A `char`
  value is an integer; it is negative for a byte of 128 or more where `char` is
  signed, and `(size_t)c` is its value modulo `2^64`.
* A value is an address (`const void *`); `NULL` is address `0`.  The table
  never dereferences it.
* A chain (the nodes linked through `next`) is the list of its nodes from the
  bucket head on.  Nodes are owned by exactly one chain, so in-place relinking
  of `next` fields is the corresponding list operation.
* The bucket array is the list of its chains; an empty chain is a `NULL` head.
* `malloc`/`calloc` outcomes are inputs of the operations that allocate.
* `length` is a `size_t` counter of live heap nodes.  Each counted node is a
  distinct live allocation of `sizeof(struct Node)` bytes, so the counter
  stays far below `2^64` and `length++` never wraps; `length--` is executed
  only after a node has been found.  The counter is therefore a natural number.
-/

namespace SymTableHash

/-! ## Data model -/

/-- Content of a NUL-terminated string: its `char` values, terminator excluded. -/
abbrev Key := List Int

/-- An opaque client pointer (`const void *`), as an address. -/
abbrev Value := Nat

/-- The null pointer. -/
def NULL : Value := 0

/-- The payload of a `struct Node`; the `next` link is the list structure of the chain. -/
structure Node where
  key : Key
  value : Value
deriving DecidableEq, Repr

/-- A bucket chain, head first. -/
abbrev Chain := List Node

/-- The `struct SymTable` record. -/
structure SymTable where
  buckets : List Chain
  length : Nat
  bucketIndex : Nat
deriving DecidableEq, Repr

/-- Outcomes of the allocations one `SymTable_put` call may perform:
`grow` for the `calloc` of the new bucket array in `expand`, `node` for the
`malloc` of the node, `keyCopy` for the `malloc` of the key copy. -/
structure Alloc where
  grow : Bool
  node : Bool
  keyCopy : Bool
deriving DecidableEq, Repr

/-- Every allocation succeeds. -/
def Alloc.ok : Alloc := ⟨true, true, true⟩

/-! ## Constants and the hash function -/

/-- The growth schedule `bucketCounts[]`. -/
def bucketCounts : List Nat := [509, 1021, 2039, 4093, 8191, 16381, 32749, 65521]

/-- The constant `numBucketCounts`. -/
def numBucketCounts : Nat := bucketCounts.length

/-- `bucketCounts[i]`. -/
def bucketCount (i : Nat) : Nat := bucketCounts.getD i 0

/-- Number of values of `size_t`. -/
def SIZE_MOD : Nat := 2 ^ 64

/-- The conversion `(size_t)c` of a `char` value. -/
def charToSize (c : Int) : Nat := (c % (SIZE_MOD : Int)).toNat

/-- One iteration of the loop of `SymTable_hash`. -/
def hashStep (uHash : Nat) (c : Int) : Nat := (uHash * 65599 + charToSize c) % SIZE_MOD

/-- `SymTable_hash`. -/
def SymTable_hash (pcKey : Key) (uBucketCount : Nat) : Nat :=
  pcKey.foldl hashStep 0 % uBucketCount

/-! ## Operations -/

/-- The inner `while` loop of `expand`: relink every node of one old chain as
the head of its new bucket. -/
def rehashChain (newBucketCount : Nat) (newBuckets : List Chain) (chain : Chain) : List Chain :=
  chain.foldl
    (fun nb curr =>
      let keyHash := SymTable_hash curr.key newBucketCount
      nb.set keyHash (curr :: nb.getD keyHash []))
    newBuckets

/-- The outer `for` loop of `expand` over the old bucket array. -/
def rehashAll (oldBucketCount newBucketCount : Nat) (oldBuckets : List Chain) : List Chain :=
  (List.range oldBucketCount).foldl
    (fun nb i => rehashChain newBucketCount nb (oldBuckets.getD i []))
    (List.replicate newBucketCount [])

/-- `expand`; `callocOk` is the outcome of the allocation of the new array. -/
def expand (callocOk : Bool) (t : SymTable) : SymTable :=
  let newIndex := t.bucketIndex + 1
  if newIndex > numBucketCounts - 1 then t
  else
    let newBucketCount := bucketCount newIndex
    if !callocOk then t
    else
      { buckets := rehashAll (bucketCount (newIndex - 1)) newBucketCount t.buckets
        length := t.length
        bucketIndex := newIndex }

/-- `SymTable_new` (both allocations succeeding). -/
def SymTable_new : SymTable :=
  { buckets := List.replicate (bucketCount 0) [], length := 0, bucketIndex := 0 }

/-- `SymTable_getLength`. -/
def SymTable_getLength (t : SymTable) : Nat := t.length

/-- The chain search shared by `SymTable_put` and `SymTable_contains`. -/
def chainHas (pcKey : Key) : Chain → Bool
  | [] => false
  | curr :: next => if pcKey = curr.key then true else chainHas pcKey next

/-- The chain search of `SymTable_get`. -/
def chainGet (pcKey : Key) : Chain → Value
  | [] => NULL
  | curr :: next => if pcKey = curr.key then curr.value else chainGet pcKey next

/-- The chain search of `SymTable_replace`: the old value and the updated chain. -/
def chainReplace (pcKey : Key) (pvValue : Value) : Chain → Option (Value × Chain)
  | [] => none
  | curr :: next =>
    if pcKey = curr.key then some (curr.value, { curr with value := pvValue } :: next)
    else
      match chainReplace pcKey pvValue next with
      | some (old, next') => some (old, curr :: next')
      | none => none

/-- The `while` loop of `SymTable_remove` over the nodes after the head: the
removed value and the chain with that node unlinked. -/
def chainUnlink (pcKey : Key) : Chain → Option (Value × Chain)
  | [] => none
  | curr :: next =>
    if pcKey = curr.key then some (curr.value, next)
    else
      match chainUnlink pcKey next with
      | some (v, next') => some (v, curr :: next')
      | none => none

/-- `SymTable_put`: the returned `int` and the table after the call. -/
def SymTable_put (a : Alloc) (t : SymTable) (pcKey : Key) (pvValue : Value) : Int × SymTable :=
  let t1 := if t.length = bucketCount t.bucketIndex then expand a.grow t else t
  let keyHash := SymTable_hash pcKey (bucketCount t1.bucketIndex)
  if chainHas pcKey (t1.buckets.getD keyHash []) then (0, t1)
  else if !a.node then (0, t1)
  else if !a.keyCopy then (0, t1)
  else
    (1, { t1 with
          buckets := t1.buckets.set keyHash (⟨pcKey, pvValue⟩ :: t1.buckets.getD keyHash [])
          length := t1.length + 1 })

/-- `SymTable_replace`: the returned pointer and the table after the call. -/
def SymTable_replace (t : SymTable) (pcKey : Key) (pvValue : Value) : Value × SymTable :=
  let keyHash := SymTable_hash pcKey (bucketCount t.bucketIndex)
  match chainReplace pcKey pvValue (t.buckets.getD keyHash []) with
  | some (oldValue, chain) => (oldValue, { t with buckets := t.buckets.set keyHash chain })
  | none => (NULL, t)

/-- `SymTable_contains`. -/
def SymTable_contains (t : SymTable) (pcKey : Key) : Int :=
  let keyHash := SymTable_hash pcKey (bucketCount t.bucketIndex)
  if chainHas pcKey (t.buckets.getD keyHash []) then 1 else 0

/-- `SymTable_get`. -/
def SymTable_get (t : SymTable) (pcKey : Key) : Value :=
  let keyHash := SymTable_hash pcKey (bucketCount t.bucketIndex)
  chainGet pcKey (t.buckets.getD keyHash [])

/-- `SymTable_remove`: the returned pointer and the table after the call. -/
def SymTable_remove (t : SymTable) (pcKey : Key) : Value × SymTable :=
  let keyHash := SymTable_hash pcKey (bucketCount t.bucketIndex)
  match t.buckets.getD keyHash [] with
  | [] => (NULL, t)
  | prev :: rest =>
    if pcKey = prev.key then
      (prev.value, { t with buckets := t.buckets.set keyHash rest, length := t.length - 1 })
    else
      match chainUnlink pcKey rest with
      | some (value, rest') =>
        (value, { t with buckets := t.buckets.set keyHash (prev :: rest'), length := t.length - 1 })
      | none => (NULL, t)

/-- `SymTable_map`.  The visit function acts on a client state `σ`; the table
itself is only read. -/
def SymTable_map {σ : Type} (t : SymTable) (pfApply : Key → Value → Value → σ → σ)
    (pvExtra : Value) (s : σ) : σ :=
  (List.range (bucketCount t.bucketIndex)).foldl
    (fun s i => (t.buckets.getD i []).foldl (fun s curr => pfApply curr.key curr.value pvExtra s) s)
    s

/-- A visit function that records its arguments, in call order. -/
def recordVisit (pcKey : Key) (pvValue : Value) (pvExtra : Value)
    (log : List (Key × Value × Value)) : List (Key × Value × Value) :=
  log ++ [(pcKey, pvValue, pvExtra)]

/-- The calls `SymTable_map` makes, in order. -/
def visits (t : SymTable) (pvExtra : Value) : List (Key × Value × Value) :=
  SymTable_map t recordVisit pvExtra []

/-! ## Specification vocabulary -/

/-- All nodes of the table: the chains of the bucket array, concatenated in array order. -/
def entries (t : SymTable) : List Node := t.buckets.flatten

/-- The keys stored in the table, in the order of `entries`. -/
def keys (t : SymTable) : List Key := (entries t).map Node.key

/-- Well-formed table: the schedule index is valid, the bucket array has the
scheduled size, every node sits in the bucket its key hashes to, no key is
stored twice, and `length` counts the nodes. -/
def WF (t : SymTable) : Prop :=
  t.bucketIndex < numBucketCounts ∧
  t.buckets.length = bucketCount t.bucketIndex ∧
  (∀ i < t.buckets.length, ∀ e ∈ t.buckets.getD i [],
      SymTable_hash e.key (bucketCount t.bucketIndex) = i) ∧
  (keys t).Nodup ∧
  t.length = (entries t).length

instance (t : SymTable) : Decidable (WF t) := by
  unfold WF; infer_instance

/-- A call of the interface on an existing table. -/
inductive Op where
  | put (a : Alloc) (k : Key) (v : Value)
  | replace (k : Key) (v : Value)
  | contains (k : Key)
  | get (k : Key)
  | remove (k : Key)
  | map (extra : Value)
deriving DecidableEq, Repr

/-- The table after one call.  `SymTable_contains`, `SymTable_get` and
`SymTable_map` take the table read-only. -/
def step (t : SymTable) : Op → SymTable
  | .put a k v => (SymTable_put a t k v).2
  | .replace k v => (SymTable_replace t k v).2
  | .contains _ => t
  | .get _ => t
  | .remove k => (SymTable_remove t k).2
  | .map _ => t

/-- The table after a sequence of calls. -/
def run (t : SymTable) (ops : List Op) : SymTable := ops.foldl step t

/-- A table is reachable when some sequence of calls produces it from `SymTable_new`. -/
def Reachable (t : SymTable) : Prop := ∃ ops : List Op, run SymTable_new ops = t

/-- Number of `SymTable_put` calls of the sequence that returned 1. -/
def putsAccepted : SymTable → List Op → Nat
  | _, [] => 0
  | t, .put a k v :: ops =>
    (if (SymTable_put a t k v).1 = 1 then 1 else 0) + putsAccepted (step t (.put a k v)) ops
  | t, op :: ops => putsAccepted (step t op) ops

/-- Number of `SymTable_remove` calls of the sequence that found their key
(the key was present when the call was made) and unlinked its node. -/
def removesDone : SymTable → List Op → Nat
  | _, [] => 0
  | t, .remove k :: ops =>
    (if SymTable_contains t k = 1 then 1 else 0) + removesDone (step t (.remove k)) ops
  | t, op :: ops => removesDone (step t op) ops

/-- The in-place update `curr->value = pvValue` on the node with key `k`. -/
def setValue (k : Key) (v : Value) (e : Node) : Node :=
  if k = e.key then { e with value := v } else e

/-- The node does not carry key `k`. -/
def keyNe (k : Key) (e : Node) : Bool := decide (e.key ≠ k)

/-- The node belongs in bucket `j` of an array of `n` buckets. -/
def inBucket (n j : Nat) (e : Node) : Bool := decide (SymTable_hash e.key n = j)

/-- The table after the growth step at the start of `SymTable_put`. -/
def grown (a : Alloc) (t : SymTable) : SymTable :=
  if t.length = bucketCount t.bucketIndex then expand a.grow t else t

/-- The table after the final steps of a successful `SymTable_put`: the new node
linked as the head of its bucket and the counter incremented. -/
def linkHead (t : SymTable) (k : Key) (v : Value) : SymTable :=
  { t with
    buckets := t.buckets.set (SymTable_hash k (bucketCount t.bucketIndex))
      (⟨k, v⟩ :: t.buckets.getD (SymTable_hash k (bucketCount t.bucketIndex)) [])
    length := t.length + 1 }

/-- The `i`-th key of a supply of pairwise distinct three-character keys. -/
def fillKey (i : Nat) : Key :=
  [1 + ((i / 10000 : Nat) : Int), 1 + ((i / 100 % 100 : Nat) : Int), 1 + ((i % 100 : Nat) : Int)]

/-- Puts of the first `n` keys of the supply, key `i` with value `i + 1`, every allocation succeeding. -/
def fillOps (n : Nat) : List Op :=
  (List.range n).map (fun i => Op.put Alloc.ok (fillKey i) (i + 1))

/-- The table after the puts of `fillOps n` on a fresh table. -/
def filled (n : Nat) : SymTable := run SymTable_new (fillOps n)

/-- A table whose bucket 1 holds a chain of three nodes: the keys `[1]`,
`[1, 63]` and `[2, 125]` all hash to 1 modulo 509. -/
def chainOfThree : SymTable :=
  run SymTable_new
    [.put Alloc.ok [2, 125] 1, .put Alloc.ok [1, 63] 2, .put Alloc.ok [1] 3]

/-- The calls putting the given keys with the given values, in order, each with
its own allocation outcomes. -/
def putOps (puts : List (Alloc × Key × Value)) : List Op :=
  puts.map (fun p => Op.put p.1 p.2.1 p.2.2)

/-- A call of the interface on an existing table, `SymTable_getLength` included. -/
inductive Call where
  | op (o : Op)
  | getLength
deriving DecidableEq, Repr

/-- What a call returns to the client. -/
inductive Res where
  | int (i : Int)
  | ptr (p : Value)
  | size (n : Nat)
  | void
deriving DecidableEq, Repr

/-- The value returned by one call on the hash table. -/
def result (t : SymTable) : Call → Res
  | .op (.put a k v) => .int (SymTable_put a t k v).1
  | .op (.replace k v) => .ptr (SymTable_replace t k v).1
  | .op (.contains k) => .int (SymTable_contains t k)
  | .op (.get k) => .ptr (SymTable_get t k)
  | .op (.remove k) => .ptr (SymTable_remove t k).1
  | .op (.map _) => .void
  | .getLength => .size (SymTable_getLength t)

/-- The hash table after one call. -/
def stepCall (t : SymTable) : Call → SymTable
  | .op o => step t o
  | .getLength => t

/-- The values returned by a sequence of calls on the hash table, in order. -/
def results : SymTable → List Call → List Res
  | _, [] => []
  | t, c :: cs => result t c :: results (stepCall t c) cs

/-- The hash table after a sequence of calls. -/
def runCalls (t : SymTable) (cs : List Call) : SymTable := cs.foldl stepCall t

end SymTableHash

/-! # The linked-list implementation of `symtablelist.c`

The same interface over a single chain.  Keys, values, nodes and allocation
outcomes are those of the hash-table embedding; `Alloc.grow` is not used.  A
call whose execution reaches undefined behaviour has no outcome: it yields
`none`. -/

namespace SymTableList

open SymTableHash (Key Value Node Chain NULL Alloc Op Call Res)

/-- The `struct SymTable` record of `symtablelist.c`. -/
structure SymTable where
  first : Chain
  length : Nat
deriving DecidableEq, Repr

/-- `SymTable_new` (the allocation succeeding). -/
def SymTable_new : SymTable := { first := [], length := 0 }

/-- `SymTable_getLength`. -/
def SymTable_getLength (t : SymTable) : Nat := t.length

/-- The `while` loop of `SymTable_contains`. -/
def containsLoop (pcKey : Key) : Chain → Int
  | [] => 0
  | curr :: next => if curr.key = pcKey then 1 else containsLoop pcKey next

/-- `SymTable_contains`. -/
def SymTable_contains (t : SymTable) (pcKey : Key) : Int := containsLoop pcKey t.first

/-- `SymTable_put`: the returned `int` and the table after the call.  The key
copy is allocated before the node. -/
def SymTable_put (a : Alloc) (t : SymTable) (pcKey : Key) (pvValue : Value) : Int × SymTable :=
  if SymTable_contains t pcKey ≠ 0 then (0, t)
  else if !a.keyCopy then (0, t)
  else if !a.node then (0, t)
  else (1, { first := ⟨pcKey, pvValue⟩ :: t.first, length := t.length + 1 })

/-- The `while` loop of `SymTable_replace`: the old value and the updated chain. -/
def replaceLoop (pcKey : Key) (pvValue : Value) : Chain → Option (Value × Chain)
  | [] => none
  | curr :: next =>
    if pcKey = curr.key then some (curr.value, { curr with value := pvValue } :: next)
    else
      match replaceLoop pcKey pvValue next with
      | some (oldValue, next') => some (oldValue, curr :: next')
      | none => none

/-- `SymTable_replace`: the returned pointer and the table after the call. -/
def SymTable_replace (t : SymTable) (pcKey : Key) (pvValue : Value) : Value × SymTable :=
  match replaceLoop pcKey pvValue t.first with
  | some (oldValue, first) => (oldValue, { t with first := first })
  | none => (NULL, t)

/-- The `while` loop of `SymTable_get`. -/
def getLoop (pcKey : Key) : Chain → Value
  | [] => NULL
  | curr :: next => if pcKey = curr.key then curr.value else getLoop pcKey next

/-- `SymTable_get`. -/
def SymTable_get (t : SymTable) (pcKey : Key) : Value := getLoop pcKey t.first

/-- The `while` loop of `SymTable_remove`: the value of the node found and the
chain with that node unlinked (from `first` when there is no predecessor, from
the predecessor otherwise). -/
def removeLoop (pcKey : Key) : Chain → Option (Value × Chain)
  | [] => none
  | curr :: next =>
    if pcKey = curr.key then some (curr.value, next)
    else
      match removeLoop pcKey next with
      | some (value, next') => some (value, curr :: next')
      | none => none

/-- `freeBoth`: `free(node)` followed by `free((char*)node->key)`.  The second
statement reads the `key` field of the block that the first has released, which
is undefined behaviour: the call has no defined outcome (`none`). -/
def freeBoth (_node : Node) : Option Unit := none

/-- `SymTable_remove`: the returned pointer and the table after the call, or
`none` when the call has no defined outcome.  When the loop finds a node it
unlinks it, decrements the counter and calls `freeBoth` on it before returning. -/
def SymTable_remove (t : SymTable) (pcKey : Key) : Option (Value × SymTable) :=
  match removeLoop pcKey t.first with
  | some (value, first) =>
    match freeBoth ⟨pcKey, value⟩ with
    | some _ => some (value, { first := first, length := t.length - 1 })
    | none => none
  | none => some (NULL, t)

/-- `SymTable_map`; the visit function acts on a client state `σ`. -/
def SymTable_map {σ : Type} (t : SymTable) (pfApply : Key → Value → Value → σ → σ)
    (pvExtra : Value) (s : σ) : σ :=
  t.first.foldl (fun s curr => pfApply curr.key curr.value pvExtra s) s

/-- The calls `SymTable_map` makes, in order. -/
def visits (t : SymTable) (pvExtra : Value) : List (Key × Value × Value) :=
  SymTable_map t SymTableHash.recordVisit pvExtra []

/-- The list table after one call, or `none` when the call has no defined outcome. -/
def step (t : SymTable) : Op → Option SymTable
  | .put a k v => some (SymTable_put a t k v).2
  | .replace k v => some (SymTable_replace t k v).2
  | .contains _ => some t
  | .get _ => some t
  | .remove k => (SymTable_remove t k).map Prod.snd
  | .map _ => some t

/-- The value returned by one call on the list table, or `none` when the call
has no defined outcome. -/
def result (t : SymTable) : Call → Option Res
  | .op (.put a k v) => some (.int (SymTable_put a t k v).1)
  | .op (.replace k v) => some (.ptr (SymTable_replace t k v).1)
  | .op (.contains k) => some (.int (SymTable_contains t k))
  | .op (.get k) => some (.ptr (SymTable_get t k))
  | .op (.remove k) => (SymTable_remove t k).map (fun p => Res.ptr p.1)
  | .op (.map _) => some .void
  | .getLength => some (.size (SymTable_getLength t))

/-- The list table after one call, or `none` when the call has no defined outcome. -/
def stepCall (t : SymTable) : Call → Option SymTable
  | .op o => step t o
  | .getLength => some t

/-- The values returned by a sequence of calls on the list table, in order, or
`none` when one of the calls has no defined outcome. -/
def results : SymTable → List Call → Option (List Res)
  | _, [] => some []
  | t, c :: cs =>
    match result t c, stepCall t c with
    | some r, some t' => (results t' cs).map (fun rs => r :: rs)
    | _, _ => none

/-- The list table after a sequence of calls, or `none` when one of the calls
has no defined outcome. -/
def runCalls : SymTable → List Call → Option SymTable
  | t, [] => some t
  | t, c :: cs =>
    match stepCall t c with
    | some t' => runCalls t' cs
    | none => none

end SymTableList

namespace SymTableHash

/-- The hash table and the list table hold the same nodes and the same count. -/
def Sim (h : SymTable) (l : SymTableList.SymTable) : Prop :=
  WF h ∧ List.Perm (entries h) l.first ∧ h.length = l.length

/-- The binding of key `k` after one call, given its binding `cur` before the
call on table `t`: a put of `k` that returns 1 binds its value, a replace of `k`
rebinds a bound key, a remove of `k` that finds the key unbinds it. -/
def bindAfter (k : Key) (t : SymTable) (cur : Option Value) : Op → Option Value
  | .put a k' v => if k' = k ∧ (SymTable_put a t k' v).1 = 1 then some v else cur
  | .replace k' v => if k' = k then cur.map (fun _ => v) else cur
  | .remove k' => if k' = k ∧ SymTable_contains t k' = 1 then none else cur
  | _ => cur

/-- The binding of key `k` according to the history of calls `ops` made from
table `t` on, given its binding `cur` at `t`. -/
def tracked (k : Key) : SymTable → List Op → Option Value → Option Value
  | _, [], cur => cur
  | t, op :: ops, cur => tracked k (step t op) ops (bindAfter k t cur op)

/-- The scenario `put("a",1); put("b",2); put("a",3)` on a fresh table. -/
def scenarioPuts : SymTable :=
  (SymTable_put Alloc.ok
    (SymTable_put Alloc.ok (SymTable_put Alloc.ok SymTable_new [97] 1).2 [98] 2).2 [97] 3).2

/-- The scenario after `replace("a",9)`. -/
def scenarioReplaced : SymTable := (SymTable_replace scenarioPuts [97] 9).2

/-- The scenario after the first `remove("b")`. -/
def scenarioRemoved : SymTable := (SymTable_remove scenarioReplaced [98]).2

/-- The schedule index reached by `n` puts of distinct keys on a fresh table,
every allocation succeeding: the number of capacities among the first seven of
the schedule that `n` exceeds. -/
def schedIndex (n : Nat) : Nat :=
  if n ≤ 509 then 0 else if n ≤ 1021 then 1 else if n ≤ 2039 then 2 else if n ≤ 4093 then 3
  else if n ≤ 8191 then 4 else if n ≤ 16381 then 5 else if n ≤ 32749 then 6 else 7

/-- The call does not suffer a failed allocation of a new bucket array. -/
def growthAllocated : Op → Bool
  | .put a _ _ => a.grow
  | _ => true

/-- The allocation outcomes of a put whose growth allocation fails. -/
def Alloc.noGrow : Alloc := ⟨false, true, true⟩

/-- The allocation outcomes of a put whose growth and node allocations fail. -/
def Alloc.noNode : Alloc := ⟨false, false, true⟩

/-- The allocation outcomes of a put whose key allocation fails. -/
def Alloc.noKeyCopy : Alloc := ⟨true, true, false⟩

/-- Every node sits in the bucket whose index is the hash of its key for the
current bucket count. -/
def Placed (t : SymTable) : Prop :=
  ∀ i e, e ∈ t.buckets.getD i [] → i = SymTable_hash e.key (bucketCount t.bucketIndex)

/-- The accumulator of the hash as the specification words it, over a sequence
of byte values: `H 0 = 0` and `H (i + 1) = (H i * 65599 + b i) mod 2^64`. -/
def specAccum (b : List Nat) : Nat → Nat
  | 0 => 0
  | i + 1 => (specAccum b i * 65599 + b.getD i 0) % 2 ^ 64

/-- The hash as the specification words it: `H n mod m` for a sequence of `n` values. -/
def specHash (b : List Nat) (m : Nat) : Nat := specAccum b b.length % m

/-- The value (0 to 255) of the byte that stores the `char` value `c`. -/
def byteOf (c : Int) : Nat := (c % 256).toNat

/-- The value added for a character whose `char` value is `c`, as the amended
wording of the hash has it: the byte's value when `c` is not negative, and the
byte's value `+ 2^64 - 256` when `c` is negative. -/
def convertedByte (c : Int) : Nat := if 0 ≤ c then byteOf c else byteOf c + 2 ^ 64 - 256

/-- The table after `put(k, NULL)` on a fresh table, with `k` the key "a". -/
def nullBound : SymTable := (SymTable_put Alloc.ok SymTable_new [97] NULL).2

/-! ## Lists of chains -/

theorem getD_set_self {α : Type} (l : List α) (j : Nat) (x d : α) (h : j < l.length) :
    (l.set j x).getD j d = x := by
  induction l generalizing j with
  | nil => simp at h
  | cons a l ih =>
    cases j with
    | zero => rfl
    | succ j => exact ih j (by simpa using h)

theorem getD_set_other {α : Type} (l : List α) (i j : Nat) (x d : α) (h : i ≠ j) :
    (l.set j x).getD i d = l.getD i d := by
  induction l generalizing i j with
  | nil => rfl
  | cons a l ih =>
    cases j with
    | zero =>
      cases i with
      | zero => exact absurd rfl h
      | succ i => rfl
    | succ j =>
      cases i with
      | zero => rfl
      | succ i => exact ih i j (fun e => h (by rw [e]))

theorem getD_replicate_nil {α : Type} (n i : Nat) :
    (List.replicate n ([] : List α)).getD i [] = [] := by
  induction n generalizing i with
  | zero => rfl
  | succ n ih =>
    cases i with
    | zero => rfl
    | succ i => exact ih i

theorem getD_of_length_le {α : Type} (l : List α) (i : Nat) (d : α) (h : l.length ≤ i) :
    l.getD i d = d := by
  induction l generalizing i with
  | nil => rfl
  | cons a l ih =>
    cases i with
    | zero => simp at h
    | succ i => exact ih i (by simpa using h)

theorem flatten_replicate_nil {α : Type} (n : Nat) :
    (List.replicate n ([] : List α)).flatten = [] := by
  induction n with
  | zero => rfl
  | succ n ih => simp [List.replicate_succ]

/-- Splitting the concatenation of the chains around bucket `j`. -/
theorem flatten_split {α : Type} (l : List (List α)) (j : Nat) (h : j < l.length) :
    l.flatten = (l.take j).flatten ++ (l.getD j [] ++ (l.drop (j + 1)).flatten) := by
  induction l generalizing j with
  | nil => simp at h
  | cons a l ih =>
    cases j with
    | zero => simp
    | succ j =>
      have := ih j (by simpa using h)
      simp only [List.flatten_cons, List.take_succ_cons, List.getD_cons_succ, List.drop_succ_cons,
        List.append_assoc]
      rw [this]

/-- Concatenation of the chains after bucket `j` has been overwritten. -/
theorem flatten_set {α : Type} (l : List (List α)) (j : Nat) (c : List α) (h : j < l.length) :
    (l.set j c).flatten = (l.take j).flatten ++ (c ++ (l.drop (j + 1)).flatten) := by
  induction l generalizing j with
  | nil => simp at h
  | cons a l ih =>
    cases j with
    | zero => simp
    | succ j =>
      have := ih j (by simpa using h)
      simp only [List.set_cons_succ, List.flatten_cons, List.take_succ_cons, List.drop_succ_cons,
        List.append_assoc]
      rw [this]

theorem mem_flatten_iff_getD {α : Type} (l : List (List α)) (e : α) :
    e ∈ l.flatten ↔ ∃ i, i < l.length ∧ e ∈ l.getD i [] := by
  induction l with
  | nil => simp
  | cons a l ih =>
    simp only [List.flatten_cons, List.mem_append, ih, List.length_cons]
    constructor
    · rintro (h | ⟨i, hi, he⟩)
      · exact ⟨0, by omega, h⟩
      · exact ⟨i + 1, by omega, he⟩
    · rintro ⟨i, hi, he⟩
      cases i with
      | zero => exact Or.inl he
      | succ i => exact Or.inr ⟨i, by omega, he⟩

theorem map_range_getD {α : Type} (l : List α) (d : α) :
    (List.range l.length).map (fun i => l.getD i d) = l := by
  apply List.ext_getElem
  · simp
  · intro i h1 h2
    simp only [List.getElem_map, List.getElem_range]
    rw [List.getD_eq_getElem _ _ h2]

/-- Overwriting bucket `j` by the image of its chain under `f` is mapping `f` over
all chains, when `f` fixes every other chain. -/
theorem set_eq_map {α : Type} (l : List (List α)) (j : Nat) (f : List α → List α)
    (h : ∀ i, i < l.length → i ≠ j → f (l.getD i []) = l.getD i []) :
    l.set j (f (l.getD j [])) = l.map f := by
  induction l generalizing j with
  | nil => rfl
  | cons a l ih =>
    cases j with
    | zero =>
      simp only [List.set_cons_zero, List.getD_cons_zero, List.map_cons, List.cons.injEq, true_and]
      have : l.set l.length (f (l.getD l.length [])) = l.map f :=
        ih l.length (fun i hi hne => h (i + 1) (by simpa using hi) (by omega))
      rw [← this, List.set_eq_of_length_le (Nat.le_refl _)]
    | succ j =>
      simp only [List.set_cons_succ, List.getD_cons_succ, List.map_cons, List.cons.injEq]
      refine ⟨(h 0 (by simp) (by omega)).symm, ih j ?_⟩
      intro i hi hne
      exact h (i + 1) (by simpa using hi) (by omega)

/-! ## Chains -/

theorem chainHas_iff (k : Key) (c : Chain) : chainHas k c = true ↔ k ∈ c.map Node.key := by
  induction c with
  | nil => simp [chainHas]
  | cons e c ih =>
    by_cases h : k = e.key
    · simp [chainHas, h]
    · simp [chainHas, h, ih]

theorem chainHas_false_iff (k : Key) (c : Chain) :
    chainHas k c = false ↔ k ∉ c.map Node.key := by
  rw [← chainHas_iff]; simp

theorem chainGet_of_not_has (k : Key) (c : Chain) (h : chainHas k c = false) :
    chainGet k c = NULL := by
  induction c with
  | nil => rfl
  | cons e c ih =>
    by_cases hk : k = e.key
    · simp [chainHas, hk] at h
    · simp only [chainHas, hk, if_false] at h
      simp [chainGet, hk, ih h]

theorem chainGet_of_mem (c : Chain) (hnd : (c.map Node.key).Nodup) (e : Node) (he : e ∈ c) :
    chainGet e.key c = e.value := by
  induction c with
  | nil => simp at he
  | cons x c ih =>
    simp only [List.map_cons, List.nodup_cons] at hnd
    rcases List.mem_cons.mp he with rfl | hmem
    · simp [chainGet]
    · have hne : e.key ≠ x.key := by
        intro heq
        exact hnd.1 (heq ▸ List.mem_map_of_mem Node.key hmem)
      simp [chainGet, hne, ih hnd.2 hmem]

theorem mem_of_chainHas (k : Key) (c : Chain) (h : chainHas k c = true) :
    (⟨k, chainGet k c⟩ : Node) ∈ c := by
  induction c with
  | nil => simp [chainHas] at h
  | cons e c ih =>
    by_cases hk : k = e.key
    · subst hk; simp [chainGet]
    · simp only [chainHas, hk, if_false] at h
      simp only [chainGet, hk, if_false]
      exact List.mem_cons_of_mem _ (ih h)

theorem setValue_key (k : Key) (v : Value) (e : Node) : (setValue k v e).key = e.key := by
  unfold setValue; split <;> rfl

theorem map_setValue_of_not_mem (k : Key) (v : Value) (c : Chain) (h : k ∉ c.map Node.key) :
    c.map (setValue k v) = c := by
  induction c with
  | nil => rfl
  | cons e c ih =>
    simp only [List.map_cons, List.mem_cons, not_or] at h
    simp [setValue, h.1, ih h.2]

theorem filter_ne_of_not_mem (k : Key) (c : Chain) (h : k ∉ c.map Node.key) :
    c.filter (keyNe k) = c := by
  induction c with
  | nil => rfl
  | cons e c ih =>
    simp only [List.map_cons, List.mem_cons, not_or] at h
    have : keyNe k e = true := by
      simp only [keyNe, decide_eq_true_eq]
      exact fun heq => h.1 heq.symm
    rw [List.filter_cons_of_pos this, ih h.2]

theorem chainReplace_none (k : Key) (v : Value) (c : Chain) (h : chainHas k c = false) :
    chainReplace k v c = none := by
  induction c with
  | nil => rfl
  | cons e c ih =>
    by_cases hk : k = e.key
    · simp [chainHas, hk] at h
    · simp only [chainHas, hk, if_false] at h
      simp [chainReplace, hk, ih h]

theorem chainReplace_some (k : Key) (v : Value) (c : Chain) (hnd : (c.map Node.key).Nodup)
    (h : chainHas k c = true) :
    chainReplace k v c = some (chainGet k c, c.map (setValue k v)) := by
  induction c with
  | nil => simp [chainHas] at h
  | cons e c ih =>
    simp only [List.map_cons, List.nodup_cons] at hnd
    by_cases hk : k = e.key
    · subst hk
      simp [chainReplace, chainGet, setValue, map_setValue_of_not_mem _ v c hnd.1]
    · simp only [chainHas, hk, if_false] at h
      simp [chainReplace, chainGet, setValue, hk, ih hnd.2 h]

theorem chainUnlink_none (k : Key) (c : Chain) (h : chainHas k c = false) :
    chainUnlink k c = none := by
  induction c with
  | nil => rfl
  | cons e c ih =>
    by_cases hk : k = e.key
    · simp [chainHas, hk] at h
    · simp only [chainHas, hk, if_false] at h
      simp [chainUnlink, hk, ih h]

theorem chainUnlink_some (k : Key) (c : Chain) (hnd : (c.map Node.key).Nodup)
    (h : chainHas k c = true) :
    chainUnlink k c = some (chainGet k c, c.filter (keyNe k)) := by
  induction c with
  | nil => simp [chainHas] at h
  | cons e c ih =>
    simp only [List.map_cons, List.nodup_cons] at hnd
    by_cases hk : k = e.key
    · subst hk
      have : keyNe e.key e = false := by simp [keyNe]
      rw [List.filter_cons_of_neg (by simp [this]), filter_ne_of_not_mem _ c hnd.1]
      simp [chainUnlink, chainGet]
    · simp only [chainHas, hk, if_false] at h
      have : keyNe k e = true := by
        simp only [keyNe, decide_eq_true_eq]
        exact fun heq => hk heq.symm
      rw [List.filter_cons_of_pos this]
      simp [chainUnlink, chainGet, hk, ih hnd.2 h]
/-! ## Well-formed tables and lookups -/

theorem numBucketCounts_eq : numBucketCounts = 8 := rfl

theorem bucketCount_pos (i : Nat) (h : i < numBucketCounts) : 0 < bucketCount i := by
  rw [numBucketCounts_eq] at h
  interval_cases i <;> simp [bucketCount, bucketCounts]

theorem hash_lt (k : Key) (m : Nat) (h : 0 < m) : SymTable_hash k m < m :=
  Nat.mod_lt _ h

theorem wf_hash_lt {t : SymTable} (h : WF t) (k : Key) :
    SymTable_hash k (bucketCount t.bucketIndex) < t.buckets.length := by
  rw [h.2.1]
  exact hash_lt k _ (bucketCount_pos _ h.1)

theorem wf_new : WF SymTable_new := by
  refine ⟨by decide, by simp [SymTable_new], ?_, ?_, ?_⟩
  · intro i _ e he
    simp only [SymTable_new, getD_replicate_nil] at he
    simp at he
  · simp [keys, entries, SymTable_new, flatten_replicate_nil]
  · simp [entries, SymTable_new, flatten_replicate_nil]

theorem entries_new : entries SymTable_new = [] := by
  simp [entries, SymTable_new, flatten_replicate_nil]

theorem wf_chain_nodup {t : SymTable} (h : WF t) (i : Nat) (hi : i < t.buckets.length) :
    ((t.buckets.getD i []).map Node.key).Nodup := by
  have hnd := h.2.2.2.1
  unfold keys entries at hnd
  rw [flatten_split _ i hi, List.map_append, List.map_append] at hnd
  exact (List.nodup_append.mp (List.nodup_append.mp hnd).2.1).1

theorem wf_mem_bucket {t : SymTable} (h : WF t) (e : Node) (he : e ∈ entries t) :
    e ∈ t.buckets.getD (SymTable_hash e.key (bucketCount t.bucketIndex)) [] := by
  obtain ⟨i, hi, hmem⟩ := (mem_flatten_iff_getD _ _).mp he
  rw [h.2.2.1 i hi e hmem]
  exact hmem

theorem mem_entries_of_bucket {t : SymTable} (i : Nat) (e : Node)
    (he : e ∈ t.buckets.getD i []) : e ∈ entries t := by
  by_cases hi : i < t.buckets.length
  · exact (mem_flatten_iff_getD _ _).mpr ⟨i, hi, he⟩
  · rw [getD_of_length_le _ _ _ (Nat.le_of_not_lt hi)] at he
    simp at he

theorem contains_eq_one_iff (t : SymTable) (k : Key) :
    SymTable_contains t k = 1 ↔
      chainHas k (t.buckets.getD (SymTable_hash k (bucketCount t.bucketIndex)) []) = true := by
  cases hc : chainHas k (t.buckets.getD (SymTable_hash k (bucketCount t.bucketIndex)) []) <;>
    simp only [SymTable_contains, hc] <;> decide

theorem contains_eq_zero_iff (t : SymTable) (k : Key) :
    SymTable_contains t k = 0 ↔
      chainHas k (t.buckets.getD (SymTable_hash k (bucketCount t.bucketIndex)) []) = false := by
  cases hc : chainHas k (t.buckets.getD (SymTable_hash k (bucketCount t.bucketIndex)) []) <;>
    simp only [SymTable_contains, hc] <;> decide

theorem contains_eq_zero_or_one (t : SymTable) (k : Key) :
    SymTable_contains t k = 0 ∨ SymTable_contains t k = 1 := by
  cases hc : chainHas k (t.buckets.getD (SymTable_hash k (bucketCount t.bucketIndex)) [])
  · exact Or.inl ((contains_eq_zero_iff t k).mpr hc)
  · exact Or.inr ((contains_eq_one_iff t k).mpr hc)

/-- On a well-formed table `SymTable_contains` decides membership of the key. -/
theorem wf_contains_iff {t : SymTable} (h : WF t) (k : Key) :
    SymTable_contains t k = 1 ↔ k ∈ keys t := by
  rw [contains_eq_one_iff]
  constructor
  · intro hhas
    obtain ⟨e, he, hk⟩ := List.mem_map.mp ((chainHas_iff _ _).mp hhas)
    exact List.mem_map.mpr ⟨e, mem_entries_of_bucket _ e he, hk⟩
  · intro hk
    obtain ⟨e, he, rfl⟩ := List.mem_map.mp hk
    exact (chainHas_iff e.key _).mpr (List.mem_map_of_mem Node.key (wf_mem_bucket h e he))

theorem wf_contains_zero_iff {t : SymTable} (h : WF t) (k : Key) :
    SymTable_contains t k = 0 ↔ k ∉ keys t := by
  rw [← wf_contains_iff h]
  rcases contains_eq_zero_or_one t k with h0 | h1
  · simp [h0]
  · simp [h1]

/-- On a well-formed table `SymTable_get` returns the value stored with the key. -/
theorem wf_get_of_mem {t : SymTable} (h : WF t) (e : Node) (he : e ∈ entries t) :
    SymTable_get t e.key = e.value := by
  unfold SymTable_get
  exact chainGet_of_mem _ (wf_chain_nodup h _ (wf_hash_lt h _)) e (wf_mem_bucket h e he)

theorem get_of_contains_zero (t : SymTable) (k : Key) (h : SymTable_contains t k = 0) :
    SymTable_get t k = NULL :=
  chainGet_of_not_has _ _ ((contains_eq_zero_iff t k).mp h)

theorem mem_of_contains {t : SymTable} (k : Key) (h : SymTable_contains t k = 1) :
    (⟨k, SymTable_get t k⟩ : Node) ∈ entries t :=
  mem_entries_of_bucket (SymTable_hash k (bucketCount t.bucketIndex)) _
    (mem_of_chainHas _ _ ((contains_eq_one_iff t k).mp h))

/-- Two well-formed tables that store the same nodes with key `k` answer lookups of `k` alike. -/
theorem lookup_congr {t t' : SymTable} (h : WF t) (h' : WF t') (k : Key)
    (hmem : ∀ v, (⟨k, v⟩ : Node) ∈ entries t ↔ (⟨k, v⟩ : Node) ∈ entries t') :
    SymTable_get t' k = SymTable_get t k ∧ SymTable_contains t' k = SymTable_contains t k := by
  rcases contains_eq_zero_or_one t k with h0 | h1
  · have hk : k ∉ keys t := (wf_contains_zero_iff h k).mp h0
    have hk' : k ∉ keys t' := by
      intro hin
      obtain ⟨e, he, rfl⟩ := List.mem_map.mp hin
      exact hk (List.mem_map.mpr ⟨⟨e.key, e.value⟩, (hmem e.value).mpr he, rfl⟩)
    have h0' := (wf_contains_zero_iff h' k).mpr hk'
    rw [get_of_contains_zero _ _ h0, get_of_contains_zero _ _ h0', h0, h0']
    exact ⟨rfl, rfl⟩
  · have he := mem_of_contains k h1
    have he' := (hmem _).mp he
    have hg := wf_get_of_mem h' _ he'
    have hc' : SymTable_contains t' k = 1 :=
      (wf_contains_iff h' k).mpr (List.mem_map.mpr ⟨_, he', rfl⟩)
    exact ⟨hg, by rw [hc', h1]⟩
/-! ## Growth -/

theorem rehashChain_cons (n : Nat) (nb : List Chain) (e : Node) (c : Chain) :
    rehashChain n nb (e :: c) =
      rehashChain n (nb.set (SymTable_hash e.key n) (e :: nb.getD (SymTable_hash e.key n) [])) c :=
  rfl

theorem rehashChain_length (n : Nat) (nb : List Chain) (c : Chain) :
    (rehashChain n nb c).length = nb.length := by
  induction c generalizing nb with
  | nil => rfl
  | cons e c ih => rw [rehashChain_cons, ih, List.length_set]

/-- After relinking a chain, bucket `j` holds the nodes of the chain that hash
to `j`, last relinked first, in front of what it held before. -/
theorem rehashChain_getD (n : Nat) (hn : 0 < n) (nb : List Chain) (hlen : nb.length = n)
    (c : Chain) (j : Nat) :
    (rehashChain n nb c).getD j [] = (c.filter (inBucket n j)).reverse ++ nb.getD j [] := by
  induction c generalizing nb with
  | nil => rfl
  | cons e c ih =>
    rw [rehashChain_cons, ih _ (by rw [List.length_set, hlen])]
    by_cases hj : SymTable_hash e.key n = j
    · have hin : inBucket n j e = true := by simp [inBucket, hj]
      rw [List.filter_cons_of_pos hin, List.reverse_cons, List.append_assoc, ← hj,
        getD_set_self _ _ _ _ (by rw [hlen]; exact hash_lt _ _ hn)]
      rfl
    · have hin : ¬ inBucket n j e = true := by simp [inBucket, hj]
      rw [List.filter_cons_of_neg hin, getD_set_other _ _ _ _ _ (fun h => hj h.symm)]

theorem rehashFold_length (n : Nat) (bs : List Chain) (is : List Nat) (nb : List Chain) :
    (is.foldl (fun nb i => rehashChain n nb (bs.getD i [])) nb).length = nb.length := by
  induction is generalizing nb with
  | nil => rfl
  | cons i is ih => rw [List.foldl_cons, ih, rehashChain_length]

theorem rehashFold_getD (n : Nat) (hn : 0 < n) (bs : List Chain) (is : List Nat)
    (nb : List Chain) (hlen : nb.length = n) (j : Nat) :
    (is.foldl (fun nb i => rehashChain n nb (bs.getD i [])) nb).getD j [] =
      (((is.map (fun i => bs.getD i [])).flatten).filter (inBucket n j)).reverse ++ nb.getD j [] := by
  induction is generalizing nb with
  | nil => rfl
  | cons i is ih =>
    rw [List.foldl_cons, ih _ (by rw [rehashChain_length, hlen]), rehashChain_getD n hn nb hlen,
      List.map_cons, List.flatten_cons, List.filter_append, List.reverse_append, List.append_assoc]

theorem rehashAll_length (old n : Nat) (bs : List Chain) : (rehashAll old n bs).length = n := by
  unfold rehashAll
  rw [rehashFold_length, List.length_replicate]

/-- After the rehash, bucket `j` holds the nodes that hash to `j`, in the
reverse of their order in the old array. -/
theorem rehashAll_getD (n : Nat) (hn : 0 < n) (bs : List Chain) (j : Nat) :
    (rehashAll bs.length n bs).getD j [] = (bs.flatten.filter (inBucket n j)).reverse := by
  unfold rehashAll
  rw [rehashFold_getD n hn bs _ _ (List.length_replicate _ _), map_range_getD, getD_replicate_nil,
    List.append_nil]

theorem filter_disjoint_perm {α : Type} (p q r : α → Bool) (l : List α)
    (hr : ∀ x, r x = (p x || q x)) (hpq : ∀ x, p x = true → q x = false) :
    List.Perm (l.filter p ++ l.filter q) (l.filter r) := by
  induction l with
  | nil => simp
  | cons x l ih =>
    cases hp : p x
    · cases hq : q x
      · have h3 : r x = false := by rw [hr, hp, hq]; rfl
        rw [List.filter_cons_of_neg (by simp [hp]), List.filter_cons_of_neg (by simp [hq]),
          List.filter_cons_of_neg (by simp [h3])]
        exact ih
      · have h3 : r x = true := by rw [hr, hp, hq]; rfl
        rw [List.filter_cons_of_neg (by simp [hp]), List.filter_cons_of_pos hq,
          List.filter_cons_of_pos h3]
        exact List.perm_middle.trans (List.Perm.cons _ ih)
    · have hq : q x = false := hpq x hp
      have h3 : r x = true := by rw [hr, hp, hq]; rfl
      rw [List.filter_cons_of_pos hp, List.filter_cons_of_neg (by simp [hq]),
        List.filter_cons_of_pos h3]
      exact List.Perm.cons _ ih

theorem filter_lt_succ_perm {α : Type} (f : α → Nat) (m : Nat) (l : List α) :
    List.Perm (l.filter (fun e => decide (f e < m)) ++ l.filter (fun e => decide (f e = m)))
      (l.filter (fun e => decide (f e < m + 1))) := by
  apply filter_disjoint_perm
  · intro x
    by_cases h1 : f x < m <;> by_cases h2 : f x = m <;> simp [h1, h2] <;> omega
  · intro x h
    simp only [decide_eq_true_eq] at h
    simp only [decide_eq_false_iff_not]
    omega

/-- Distributing a list over `m` classes and concatenating the classes permutes it. -/
theorem classes_perm {α : Type} (f : α → Nat) (m : Nat) (l : List α) :
    List.Perm ((List.range m).map (fun j => (l.filter (fun e => decide (f e = j))).reverse)).flatten
      (l.filter (fun e => decide (f e < m))) := by
  induction m with
  | zero => simp
  | succ m ih =>
    rw [List.range_succ, List.map_append, List.flatten_append]
    simp only [List.map_cons, List.map_nil, List.flatten_cons, List.flatten_nil, List.append_nil]
    exact ((ih.append (List.reverse_perm _)).trans (filter_lt_succ_perm f m l))
theorem expand_of_fail (t : SymTable) : expand false t = t := by
  simp [expand]

theorem expand_of_last (c : Bool) (t : SymTable) (h : ¬ t.bucketIndex + 1 < numBucketCounts) :
    expand c t = t := by
  unfold expand
  rw [numBucketCounts_eq] at h
  rw [if_pos (by rw [numBucketCounts_eq]; omega)]

theorem expand_of_grow (t : SymTable) (h : t.bucketIndex + 1 < numBucketCounts) :
    expand true t =
      { buckets := rehashAll (bucketCount t.bucketIndex) (bucketCount (t.bucketIndex + 1)) t.buckets
        length := t.length
        bucketIndex := t.bucketIndex + 1 } := by
  unfold expand
  rw [numBucketCounts_eq] at h
  rw [if_neg (by rw [numBucketCounts_eq]; omega)]
  rfl

/-- The three outcomes of `expand`. -/
theorem expand_cases (c : Bool) (t : SymTable) :
    expand c t = t ∨
      (c = true ∧ t.bucketIndex + 1 < numBucketCounts ∧ expand c t = expand true t) := by
  by_cases h : t.bucketIndex + 1 < numBucketCounts
  · cases c
    · exact Or.inl (expand_of_fail t)
    · exact Or.inr ⟨rfl, h, rfl⟩
  · exact Or.inl (expand_of_last c t h)

theorem expand_bucket {t : SymTable} (h : WF t) (hi : t.bucketIndex + 1 < numBucketCounts)
    (j : Nat) :
    (expand true t).buckets.getD j [] =
      ((entries t).filter (inBucket (bucketCount (t.bucketIndex + 1)) j)).reverse := by
  rw [expand_of_grow t hi]
  show (rehashAll (bucketCount t.bucketIndex) _ t.buckets).getD j [] = _
  rw [← h.2.1]
  exact rehashAll_getD _ (bucketCount_pos _ hi) _ _

theorem expand_entries_perm {t : SymTable} (h : WF t) (hi : t.bucketIndex + 1 < numBucketCounts) :
    List.Perm (entries (expand true t)) (entries t) := by
  have hlen : (expand true t).buckets.length = bucketCount (t.bucketIndex + 1) := by
    rw [expand_of_grow t hi]
    exact rehashAll_length _ _ _
  have hpos := bucketCount_pos _ hi
  have hb : (expand true t).buckets =
      (List.range (bucketCount (t.bucketIndex + 1))).map
        (fun j => ((entries t).filter
          (fun e => decide (SymTable_hash e.key (bucketCount (t.bucketIndex + 1)) = j))).reverse) := by
    rw [← map_range_getD (expand true t).buckets [], hlen]
    apply List.map_congr_left
    intro j _
    exact expand_bucket h hi j
  unfold entries at *
  rw [hb]
  have hall : t.buckets.flatten.filter
      (fun e => decide (SymTable_hash e.key (bucketCount (t.bucketIndex + 1)) <
        bucketCount (t.bucketIndex + 1))) = t.buckets.flatten := by
    apply List.filter_eq_self.mpr
    intro e _
    simpa using hash_lt e.key _ hpos
  have := classes_perm (fun e : Node => SymTable_hash e.key (bucketCount (t.bucketIndex + 1)))
    (bucketCount (t.bucketIndex + 1)) t.buckets.flatten
  rw [hall] at this
  exact this

theorem expand_grow_wf {t : SymTable} (h : WF t) (hi : t.bucketIndex + 1 < numBucketCounts) :
    WF (expand true t) := by
  have hperm := expand_entries_perm h hi
  have hidx : (expand true t).bucketIndex = t.bucketIndex + 1 := by rw [expand_of_grow t hi]
  have hlen : (expand true t).buckets.length = bucketCount (t.bucketIndex + 1) := by
    rw [expand_of_grow t hi]
    exact rehashAll_length _ _ _
  refine ⟨by rw [hidx]; exact hi, by rw [hidx, hlen], ?_, ?_, ?_⟩
  · intro i _ e he
    rw [expand_bucket h hi, List.mem_reverse, List.mem_filter] at he
    rw [hidx]
    simpa [inBucket] using he.2
  · exact (List.Perm.nodup_iff (hperm.map Node.key)).mpr h.2.2.2.1
  · rw [hperm.length_eq, ← h.2.2.2.2, expand_of_grow t hi]

theorem expand_wf (c : Bool) {t : SymTable} (h : WF t) : WF (expand c t) := by
  rcases expand_cases c t with he | ⟨_, hi, he⟩
  · rw [he]; exact h
  · rw [he]; exact expand_grow_wf h hi

theorem expand_mem (c : Bool) {t : SymTable} (h : WF t) (e : Node) :
    e ∈ entries (expand c t) ↔ e ∈ entries t := by
  rcases expand_cases c t with he | ⟨_, hi, he⟩
  · rw [he]
  · rw [he]; exact (expand_entries_perm h hi).mem_iff

theorem expand_length (c : Bool) (t : SymTable) : (expand c t).length = t.length := by
  rcases expand_cases c t with he | ⟨_, hi, he⟩
  · rw [he]
  · rw [he, expand_of_grow t hi]

theorem expand_lookup (c : Bool) {t : SymTable} (h : WF t) (k : Key) :
    SymTable_get (expand c t) k = SymTable_get t k ∧
      SymTable_contains (expand c t) k = SymTable_contains t k :=
  lookup_congr h (expand_wf c h) k (fun _ => (expand_mem c h _).symm)
/-! ## Insertion -/

theorem grown_cases (a : Alloc) (t : SymTable) :
    grown a t = t ∨ (t.length = bucketCount t.bucketIndex ∧ a.grow = true ∧
      t.bucketIndex + 1 < numBucketCounts ∧ grown a t = expand true t) := by
  unfold grown
  by_cases h : t.length = bucketCount t.bucketIndex
  · rw [if_pos h]
    rcases expand_cases a.grow t with he | ⟨hc, hi, he⟩
    · exact Or.inl he
    · exact Or.inr ⟨h, hc, hi, he⟩
  · rw [if_neg h]; exact Or.inl rfl

theorem grown_wf (a : Alloc) {t : SymTable} (h : WF t) : WF (grown a t) := by
  unfold grown
  split
  · exact expand_wf _ h
  · exact h

theorem grown_mem (a : Alloc) {t : SymTable} (h : WF t) (e : Node) :
    e ∈ entries (grown a t) ↔ e ∈ entries t := by
  unfold grown
  split
  · exact expand_mem _ h e
  · rfl

theorem grown_length (a : Alloc) (t : SymTable) : (grown a t).length = t.length := by
  unfold grown
  split
  · exact expand_length _ _
  · rfl

theorem grown_lookup (a : Alloc) {t : SymTable} (h : WF t) (k : Key) :
    SymTable_get (grown a t) k = SymTable_get t k ∧
      SymTable_contains (grown a t) k = SymTable_contains t k :=
  lookup_congr h (grown_wf a h) k (fun _ => (grown_mem a h _).symm)

theorem put_unfold (a : Alloc) (t : SymTable) (k : Key) (v : Value) :
    SymTable_put a t k v =
      if chainHas k ((grown a t).buckets.getD
          (SymTable_hash k (bucketCount (grown a t).bucketIndex)) []) then (0, grown a t)
      else if !a.node then (0, grown a t)
      else if !a.keyCopy then (0, grown a t)
      else (1, linkHead (grown a t) k v) :=
  rfl

/-- A put of a present key returns 0 after the growth step. -/
theorem put_present (a : Alloc) {t : SymTable} (h : WF t) (k : Key) (v : Value)
    (hc : SymTable_contains t k = 1) : SymTable_put a t k v = (0, grown a t) := by
  have hc' : SymTable_contains (grown a t) k = 1 := by rw [(grown_lookup a h k).2, hc]
  rw [put_unfold, if_pos ((contains_eq_one_iff _ _).mp hc')]

/-- A put of an absent key with both allocations succeeding links the node. -/
theorem put_absent (a : Alloc) {t : SymTable} (h : WF t) (k : Key) (v : Value)
    (hc : SymTable_contains t k = 0) (hn : a.node = true) (hk : a.keyCopy = true) :
    SymTable_put a t k v = (1, linkHead (grown a t) k v) := by
  have hc' : SymTable_contains (grown a t) k = 0 := by rw [(grown_lookup a h k).2, hc]
  rw [put_unfold, if_neg (by rw [(contains_eq_zero_iff _ _).mp hc']; simp), hn, hk]
  rfl

/-- Whatever the outcome, a put returning 0 leaves the table of the growth step,
and a put returning 1 has linked the node. -/
theorem put_result (a : Alloc) (t : SymTable) (k : Key) (v : Value) :
    SymTable_put a t k v = (0, grown a t) ∨
      (SymTable_contains (grown a t) k = 0 ∧ SymTable_put a t k v = (1, linkHead (grown a t) k v)) := by
  rw [put_unfold]
  cases hh : chainHas k ((grown a t).buckets.getD
      (SymTable_hash k (bucketCount (grown a t).bucketIndex)) [])
  · cases hn : a.node
    · exact Or.inl rfl
    · cases hk : a.keyCopy
      · exact Or.inl rfl
      · exact Or.inr ⟨(contains_eq_zero_iff _ _).mpr hh, rfl⟩
  · exact Or.inl rfl

theorem linkHead_perm {t : SymTable} (h : WF t) (k : Key) (v : Value) :
    List.Perm (entries (linkHead t k v)) (⟨k, v⟩ :: entries t) := by
  unfold entries linkHead
  have hj := wf_hash_lt h k
  rw [flatten_set _ _ _ hj, flatten_split t.buckets _ hj, List.cons_append]
  exact List.perm_middle

theorem linkHead_wf {t : SymTable} (h : WF t) (k : Key) (v : Value) (hk : k ∉ keys t) :
    WF (linkHead t k v) := by
  have hperm := linkHead_perm h k v
  have hj := wf_hash_lt h k
  refine ⟨h.1, ?_, ?_, ?_, ?_⟩
  · show (t.buckets.set _ _).length = _
    rw [List.length_set]; exact h.2.1
  · intro i hi e he
    have hi' : i < t.buckets.length := by
      have : (linkHead t k v).buckets.length = t.buckets.length := List.length_set _ _ _
      rw [← this]; exact hi
    show SymTable_hash e.key (bucketCount t.bucketIndex) = i
    by_cases hij : i = SymTable_hash k (bucketCount t.bucketIndex)
    · have he' : e ∈ (⟨k, v⟩ : Node) :: t.buckets.getD i [] := by
        have := he
        unfold linkHead at this
        rw [hij] at this ⊢
        rwa [getD_set_self _ _ _ _ hj] at this
      rcases List.mem_cons.mp he' with rfl | hmem
      · exact hij.symm
      · exact h.2.2.1 i hi' e hmem
    · have he' : e ∈ t.buckets.getD i [] := by
        have := he
        unfold linkHead at this
        rwa [getD_set_other _ _ _ _ _ hij] at this
      exact h.2.2.1 i hi' e he'
  · unfold keys
    rw [List.Perm.nodup_iff (hperm.map Node.key), List.map_cons, List.nodup_cons]
    exact ⟨hk, h.2.2.2.1⟩
  · rw [hperm.length_eq, List.length_cons, ← h.2.2.2.2]
    rfl

theorem linkHead_mem {t : SymTable} (h : WF t) (k : Key) (v : Value) (e : Node) :
    e ∈ entries (linkHead t k v) ↔ e = ⟨k, v⟩ ∨ e ∈ entries t := by
  rw [(linkHead_perm h k v).mem_iff, List.mem_cons]

theorem put_wf (a : Alloc) {t : SymTable} (h : WF t) (k : Key) (v : Value) :
    WF (SymTable_put a t k v).2 := by
  rcases put_result a t k v with hp | ⟨hc, hp⟩
  · rw [hp]; exact grown_wf a h
  · rw [hp]
    exact linkHead_wf (grown_wf a h) k v ((wf_contains_zero_iff (grown_wf a h) k).mp hc)
/-! ## Replacement and removal -/

theorem not_mem_other_bucket {t : SymTable} (h : WF t) (k : Key) (i : Nat)
    (hi : i < t.buckets.length) (hne : i ≠ SymTable_hash k (bucketCount t.bucketIndex)) :
    k ∉ (t.buckets.getD i []).map Node.key := by
  intro hin
  obtain ⟨e, he, rfl⟩ := List.mem_map.mp hin
  exact hne (h.2.2.1 i hi e he).symm

theorem getD_map_chain (l : List Chain) (f : Chain → Chain) (hf : f [] = []) (i : Nat) :
    (l.map f).getD i [] = f (l.getD i []) := by
  induction l generalizing i with
  | nil => exact hf.symm
  | cons a l ih =>
    cases i with
    | zero => rfl
    | succ i => exact ih i

theorem replace_absent (t : SymTable) (k : Key) (v : Value) (hc : SymTable_contains t k = 0) :
    SymTable_replace t k v = (NULL, t) := by
  unfold SymTable_replace
  simp only []
  rw [chainReplace_none _ _ _ ((contains_eq_zero_iff t k).mp hc)]

/-- Replacing the value of a present key updates exactly the node of that key. -/
theorem replace_present {t : SymTable} (h : WF t) (k : Key) (v : Value)
    (hc : SymTable_contains t k = 1) :
    SymTable_replace t k v =
      (SymTable_get t k, { t with buckets := t.buckets.map (List.map (setValue k v)) }) := by
  have hj := wf_hash_lt h k
  unfold SymTable_replace
  simp only []
  rw [chainReplace_some _ _ _ (wf_chain_nodup h _ hj) ((contains_eq_one_iff t k).mp hc)]
  simp only []
  rw [set_eq_map t.buckets _ (List.map (setValue k v))
    (fun i hi hne => map_setValue_of_not_mem _ _ _ (not_mem_other_bucket h k i hi hne))]
  rfl

theorem replace_present_entries {t : SymTable} (h : WF t) (k : Key) (v : Value)
    (hc : SymTable_contains t k = 1) :
    entries (SymTable_replace t k v).2 = (entries t).map (setValue k v) := by
  rw [replace_present h k v hc]
  unfold entries
  rw [List.map_flatten]

theorem map_setValue_keys (k : Key) (v : Value) (c : Chain) :
    (c.map (setValue k v)).map Node.key = c.map Node.key := by
  rw [List.map_map]
  apply List.map_congr_left
  intro e _
  exact setValue_key k v e

theorem replace_wf {t : SymTable} (h : WF t) (k : Key) (v : Value) :
    WF (SymTable_replace t k v).2 := by
  rcases contains_eq_zero_or_one t k with hc | hc
  · rw [replace_absent t k v hc]; exact h
  · have hent := replace_present_entries h k v hc
    rw [replace_present h k v hc] at hent ⊢
    refine ⟨h.1, ?_, ?_, ?_, ?_⟩
    · show (t.buckets.map _).length = _
      rw [List.length_map]; exact h.2.1
    · intro i hi e he
      have hi' : i < t.buckets.length := by
        have : (t.buckets.map (List.map (setValue k v))).length = t.buckets.length :=
          List.length_map _ _
        rw [← this]; exact hi
      have he' : e ∈ (t.buckets.getD i []).map (setValue k v) := by
        have := he
        rwa [show ({ t with buckets := t.buckets.map (List.map (setValue k v)) } : SymTable).buckets
          = t.buckets.map (List.map (setValue k v)) from rfl, getD_map_chain _ _ rfl] at this
      obtain ⟨e0, he0, rfl⟩ := List.mem_map.mp he'
      rw [setValue_key]
      exact h.2.2.1 i hi' e0 he0
    · unfold keys
      rw [hent, map_setValue_keys]
      exact h.2.2.2.1
    · rw [hent, List.length_map]
      exact h.2.2.2.2

theorem remove_unfold (t : SymTable) (k : Key) :
    SymTable_remove t k =
      match chainUnlink k (t.buckets.getD (SymTable_hash k (bucketCount t.bucketIndex)) []) with
      | some (value, c) =>
        (value, { t with
                  buckets := t.buckets.set (SymTable_hash k (bucketCount t.bucketIndex)) c
                  length := t.length - 1 })
      | none => (NULL, t) := by
  unfold SymTable_remove
  simp only []
  cases hb : t.buckets.getD (SymTable_hash k (bucketCount t.bucketIndex)) [] with
  | nil => rfl
  | cons prev rest =>
    by_cases hk : k = prev.key
    · simp only [chainUnlink, hk, if_true]
    · simp only [chainUnlink, hk, if_false]
      cases chainUnlink k rest with
      | none => rfl
      | some p => rfl

theorem remove_absent (t : SymTable) (k : Key) (hc : SymTable_contains t k = 0) :
    SymTable_remove t k = (NULL, t) := by
  rw [remove_unfold, chainUnlink_none _ _ ((contains_eq_zero_iff t k).mp hc)]

/-- Removing a present key drops exactly the node of that key from every chain. -/
theorem remove_present {t : SymTable} (h : WF t) (k : Key) (hc : SymTable_contains t k = 1) :
    SymTable_remove t k =
      (SymTable_get t k,
        { t with buckets := t.buckets.map (List.filter (keyNe k)), length := t.length - 1 }) := by
  have hj := wf_hash_lt h k
  rw [remove_unfold,
    chainUnlink_some _ _ (wf_chain_nodup h _ hj) ((contains_eq_one_iff t k).mp hc)]
  simp only []
  rw [set_eq_map t.buckets _ (List.filter (keyNe k))
    (fun i hi hne => filter_ne_of_not_mem _ _ (not_mem_other_bucket h k i hi hne))]
  rfl

theorem remove_present_entries {t : SymTable} (h : WF t) (k : Key)
    (hc : SymTable_contains t k = 1) :
    entries (SymTable_remove t k).2 = (entries t).filter (keyNe k) := by
  rw [remove_present h k hc]
  unfold entries
  rw [List.filter_flatten]

theorem length_filter_keyNe (k : Key) (c : Chain) (hnd : (c.map Node.key).Nodup)
    (hk : k ∈ c.map Node.key) : (c.filter (keyNe k)).length + 1 = c.length := by
  induction c with
  | nil => simp at hk
  | cons e c ih =>
    simp only [List.map_cons, List.nodup_cons] at hnd
    by_cases he : k = e.key
    · subst he
      have : keyNe e.key e = false := by simp [keyNe]
      rw [List.filter_cons_of_neg (by simp [this]), filter_ne_of_not_mem _ c hnd.1]
      rfl
    · have : keyNe k e = true := by
        simp only [keyNe, decide_eq_true_eq]
        exact fun heq => he heq.symm
      have hk' : k ∈ c.map Node.key := by
        rcases List.mem_cons.mp hk with h1 | h1
        · exact absurd h1 he
        · exact h1
      rw [List.filter_cons_of_pos this, List.length_cons, List.length_cons, ih hnd.2 hk']

theorem remove_wf {t : SymTable} (h : WF t) (k : Key) : WF (SymTable_remove t k).2 := by
  rcases contains_eq_zero_or_one t k with hc | hc
  · rw [remove_absent t k hc]; exact h
  · have hent := remove_present_entries h k hc
    rw [remove_present h k hc] at hent ⊢
    refine ⟨h.1, ?_, ?_, ?_, ?_⟩
    · show (t.buckets.map _).length = _
      rw [List.length_map]; exact h.2.1
    · intro i hi e he
      have hi' : i < t.buckets.length := by
        have : (t.buckets.map (List.filter (keyNe k))).length = t.buckets.length :=
          List.length_map _ _
        rw [← this]; exact hi
      have he' : e ∈ (t.buckets.getD i []).filter (keyNe k) := by
        have := he
        rwa [show ({ t with buckets := t.buckets.map (List.filter (keyNe k)),
                            length := t.length - 1 } : SymTable).buckets
          = t.buckets.map (List.filter (keyNe k)) from rfl, getD_map_chain _ _ rfl] at this
      exact h.2.2.1 i hi' e (List.mem_filter.mp he').1
    · unfold keys
      rw [hent]
      exact h.2.2.2.1.sublist ((List.filter_sublist _).map Node.key)
    · rw [hent]
      have := length_filter_keyNe k (entries t) h.2.2.2.1 ((wf_contains_iff h k).mp hc)
      show t.length - 1 = _
      rw [h.2.2.2.2]
      omega
/-! ## Reachable tables -/

theorem step_wf {t : SymTable} (h : WF t) (op : Op) : WF (step t op) := by
  cases op with
  | put a k v => exact put_wf a h k v
  | replace k v => exact replace_wf h k v
  | contains k => exact h
  | get k => exact h
  | remove k => exact remove_wf h k
  | map x => exact h

theorem run_wf {t : SymTable} (h : WF t) (ops : List Op) : WF (run t ops) := by
  induction ops generalizing t with
  | nil => exact h
  | cons op ops ih => exact ih (step_wf h op)

/-- Every table reachable from `SymTable_new` is well-formed. -/
theorem reachable_wf {t : SymTable} (h : Reachable t) : WF t := by
  obtain ⟨ops, rfl⟩ := h
  exact run_wf wf_new ops

theorem run_append (t : SymTable) (ops ops' : List Op) :
    run t (ops ++ ops') = run (run t ops) ops' :=
  List.foldl_append _ _ _ _

theorem reachable_new : Reachable SymTable_new := ⟨[], rfl⟩

theorem reachable_step {t : SymTable} (h : Reachable t) (op : Op) : Reachable (step t op) := by
  obtain ⟨ops, rfl⟩ := h
  exact ⟨ops ++ [op], by rw [run_append]; rfl⟩

/-! ## Traversal -/

theorem foldl_chains {α σ : Type} (g : σ → α → σ) (L : List (List α)) (s : σ) :
    L.foldl (fun s l => l.foldl g s) s = L.flatten.foldl g s := by
  induction L generalizing s with
  | nil => rfl
  | cons l L ih => rw [List.foldl_cons, ih, List.flatten_cons, List.foldl_append]

/-- On a table whose array has the scheduled size, `SymTable_map` applies the
visit function to the nodes in the order of `entries`. -/
theorem map_eq_foldl {σ : Type} (t : SymTable) (hsize : t.buckets.length = bucketCount t.bucketIndex)
    (f : Key → Value → Value → σ → σ) (x : Value) (s : σ) :
    SymTable_map t f x s = (entries t).foldl (fun s e => f e.key e.value x s) s := by
  unfold SymTable_map entries
  rw [← hsize, ← foldl_chains]
  conv_rhs => rw [← map_range_getD t.buckets []]
  rw [List.foldl_map]

theorem foldl_record (g : Node → Key × Value × Value) (l : List Node)
    (acc : List (Key × Value × Value)) :
    l.foldl (fun log e => log ++ [g e]) acc = acc ++ l.map g := by
  induction l generalizing acc with
  | nil => simp
  | cons e l ih => rw [List.foldl_cons, ih, List.map_cons, List.append_assoc]; rfl

theorem visits_eq {t : SymTable} (h : WF t) (x : Value) :
    visits t x = (entries t).map (fun e => (e.key, e.value, x)) := by
  unfold visits
  rw [map_eq_foldl t h.2.1]
  exact (foldl_record (fun e => (e.key, e.value, x)) (entries t) []).trans (List.nil_append _)
/-! ## Effect of one call on lookups and on the counter -/

theorem linkHead_get_self {t : SymTable} (h : WF t) (k : Key) (v : Value) (hk : k ∉ keys t) :
    SymTable_get (linkHead t k v) k = v :=
  wf_get_of_mem (linkHead_wf h k v hk) ⟨k, v⟩ ((linkHead_mem h k v _).mpr (Or.inl rfl))

theorem linkHead_lookup_other {t : SymTable} (h : WF t) (k : Key) (v : Value) (hk : k ∉ keys t)
    (k' : Key) (hne : k' ≠ k) :
    SymTable_get (linkHead t k v) k' = SymTable_get t k' ∧
      SymTable_contains (linkHead t k v) k' = SymTable_contains t k' := by
  apply lookup_congr h (linkHead_wf h k v hk) k'
  intro x
  rw [linkHead_mem h k v]
  constructor
  · exact Or.inr
  · rintro (heq | hmem)
    · exact absurd (congrArg Node.key heq) hne
    · exact hmem

theorem replace_length (t : SymTable) (k : Key) (v : Value) :
    (SymTable_replace t k v).2.length = t.length := by
  unfold SymTable_replace
  simp only []
  split <;> rfl

theorem replace_bucketIndex (t : SymTable) (k : Key) (v : Value) :
    (SymTable_replace t k v).2.bucketIndex = t.bucketIndex := by
  unfold SymTable_replace
  simp only []
  split <;> rfl

theorem put_length (a : Alloc) (t : SymTable) (k : Key) (v : Value) :
    (SymTable_put a t k v).2.length = t.length + (if (SymTable_put a t k v).1 = 1 then 1 else 0) := by
  rcases put_result a t k v with hp | ⟨_, hp⟩
  · rw [hp]
    show (grown a t).length = t.length + 0
    rw [grown_length]; rfl
  · rw [hp]
    show (grown a t).length + 1 = t.length + 1
    rw [grown_length]

theorem remove_length {t : SymTable} (h : WF t) (k : Key) :
    (SymTable_remove t k).2.length + (if SymTable_contains t k = 1 then 1 else 0) = t.length := by
  rcases contains_eq_zero_or_one t k with hc | hc
  · rw [remove_absent t k hc, hc]; rfl
  · have hpos : 0 < t.length := by
      rw [h.2.2.2.2]
      obtain ⟨e, he, _⟩ := List.mem_map.mp ((wf_contains_iff h k).mp hc)
      exact List.length_pos_of_mem he
    rw [remove_present h k hc, hc]
    show t.length - 1 + 1 = t.length
    omega

theorem run_length {t : SymTable} (h : WF t) (ops : List Op) :
    (run t ops).length + removesDone t ops = t.length + putsAccepted t ops := by
  induction ops generalizing t with
  | nil => rfl
  | cons op ops ih =>
    have ih' := ih (step_wf h op)
    cases op with
    | put a k v =>
      have hl := put_length a t k v
      show (run (step t (.put a k v)) ops).length + removesDone (step t (.put a k v)) ops =
        t.length + ((if (SymTable_put a t k v).1 = 1 then 1 else 0) +
          putsAccepted (step t (.put a k v)) ops)
      have hs : (step t (.put a k v)).length = (SymTable_put a t k v).2.length := rfl
      omega
    | remove k =>
      have hl := remove_length h k
      show (run (step t (.remove k)) ops).length +
        ((if SymTable_contains t k = 1 then 1 else 0) + removesDone (step t (.remove k)) ops) =
        t.length + putsAccepted (step t (.remove k)) ops
      have hs : (step t (.remove k)).length = (SymTable_remove t k).2.length := rfl
      omega
    | replace k v =>
      have hl := replace_length t k v
      show (run (step t (.replace k v)) ops).length + removesDone (step t (.replace k v)) ops =
        t.length + putsAccepted (step t (.replace k v)) ops
      have hs : (step t (.replace k v)).length = (SymTable_replace t k v).2.length := rfl
      omega
    | contains k => exact ih'
    | get k => exact ih'
    | map x => exact ih'

/-! ## The put/get round trip, the counter, duplicates -/

/-- C1: on a well-formed table, a put of an absent key whose node and key
allocations succeed returns 1 whether or not the call grows the table; afterwards
`SymTable_get` of the key returns the value put, and `SymTable_get` and
`SymTable_contains` of every other key return what they returned before.
Every table reachable from `SymTable_new` is well-formed (`reachable_wf`). -/
theorem put_get_round_trip (a : Alloc) (t : SymTable) (k : Key) (v : Value)
    (hwf : WF t) (habs : SymTable_contains t k = 0)
    (hnode : a.node = true) (hkey : a.keyCopy = true) :
    (SymTable_put a t k v).1 = 1 ∧
    SymTable_get (SymTable_put a t k v).2 k = v ∧
    ∀ k', k' ≠ k →
      SymTable_get (SymTable_put a t k v).2 k' = SymTable_get t k' ∧
      SymTable_contains (SymTable_put a t k v).2 k' = SymTable_contains t k' := by
  have hg := grown_wf a hwf
  have hk : k ∉ keys (grown a t) := by
    rw [← wf_contains_zero_iff hg, (grown_lookup a hwf k).2]
    exact habs
  rw [put_absent a hwf k v habs hnode hkey]
  refine ⟨rfl, linkHead_get_self hg k v hk, ?_⟩
  intro k' hne
  have h1 := linkHead_lookup_other hg k v hk k' hne
  have h2 := grown_lookup a hwf k'
  exact ⟨h1.1.trans h2.1, h1.2.trans h2.2⟩

/-- Witness for C1: putting key "a" into the table that holds key "b". -/
theorem put_get_round_trip_witness :
    (SymTable_put Alloc.ok (SymTable_put Alloc.ok SymTable_new [98] 2).2 [97] 1).1 = 1 ∧
    SymTable_get (SymTable_put Alloc.ok (SymTable_put Alloc.ok SymTable_new [98] 2).2 [97] 1).2
      [97] = 1 ∧
    ∀ k', k' ≠ [97] →
      SymTable_get (SymTable_put Alloc.ok (SymTable_put Alloc.ok SymTable_new [98] 2).2 [97] 1).2 k'
        = SymTable_get (SymTable_put Alloc.ok SymTable_new [98] 2).2 k' ∧
      SymTable_contains
          (SymTable_put Alloc.ok (SymTable_put Alloc.ok SymTable_new [98] 2).2 [97] 1).2 k'
        = SymTable_contains (SymTable_put Alloc.ok SymTable_new [98] 2).2 k' :=
  put_get_round_trip Alloc.ok (SymTable_put Alloc.ok SymTable_new [98] 2).2 [97] 1
    (put_wf Alloc.ok wf_new [98] 2) (by decide) rfl rfl

/-- C2: after any sequence of calls on a table created by `SymTable_new`,
`SymTable_getLength` is the number of puts that returned 1 minus the number of
removes that found and unlinked their key, and it is the number of nodes in the
bucket chains; `SymTable_replace` and `expand` keep the counter, and
`SymTable_contains`, `SymTable_get` and `SymTable_map` leave the table as it is. -/
theorem length_accounting (ops : List Op) :
    SymTable_getLength (run SymTable_new ops) + removesDone SymTable_new ops
      = putsAccepted SymTable_new ops ∧
    SymTable_getLength (run SymTable_new ops)
      = putsAccepted SymTable_new ops - removesDone SymTable_new ops ∧
    SymTable_getLength (run SymTable_new ops) = (entries (run SymTable_new ops)).length ∧
    (∀ k v, SymTable_getLength (SymTable_replace (run SymTable_new ops) k v).2
      = SymTable_getLength (run SymTable_new ops)) ∧
    (∀ c, SymTable_getLength (expand c (run SymTable_new ops))
      = SymTable_getLength (run SymTable_new ops)) ∧
    (∀ k, step (run SymTable_new ops) (.contains k) = run SymTable_new ops) ∧
    (∀ k, step (run SymTable_new ops) (.get k) = run SymTable_new ops) ∧
    (∀ x, step (run SymTable_new ops) (.map x) = run SymTable_new ops) := by
  have h := run_length wf_new ops
  have h0 : SymTable_new.length = 0 := rfl
  rw [h0, Nat.zero_add] at h
  refine ⟨h, ?_, (run_wf wf_new ops).2.2.2.2, fun k v => replace_length _ k v,
    fun c => expand_length c _, fun _ => rfl, fun _ => rfl, fun _ => rfl⟩
  unfold SymTable_getLength
  omega

/-- C3: on a well-formed table, a put of a key that is present with value `v`
returns 0 for every new value and every allocation outcome; afterwards
`SymTable_getLength` is unchanged and `SymTable_get` of the key still returns `v`. -/
theorem put_duplicate_rejected (t : SymTable) (k : Key) (v : Value)
    (hwf : WF t) (hpres : SymTable_contains t k = 1) (hval : SymTable_get t k = v) :
    ∀ (a : Alloc) (v' : Value),
      (SymTable_put a t k v').1 = 0 ∧
      SymTable_getLength (SymTable_put a t k v').2 = SymTable_getLength t ∧
      SymTable_get (SymTable_put a t k v').2 k = v := by
  intro a v'
  rw [put_present a hwf k v' hpres]
  exact ⟨rfl, grown_length a t, (grown_lookup a hwf k).1.trans hval⟩

/-- Witness for C3: a second put of key "a", with value 3, into the table that
holds "a" with value 1. -/
theorem put_duplicate_rejected_witness :
    (SymTable_put Alloc.ok (SymTable_put Alloc.ok SymTable_new [97] 1).2 [97] 3).1 = 0 ∧
    SymTable_getLength (SymTable_put Alloc.ok (SymTable_put Alloc.ok SymTable_new [97] 1).2 [97] 3).2
      = SymTable_getLength (SymTable_put Alloc.ok SymTable_new [97] 1).2 ∧
    SymTable_get (SymTable_put Alloc.ok (SymTable_put Alloc.ok SymTable_new [97] 1).2 [97] 3).2 [97]
      = 1 :=
  put_duplicate_rejected (SymTable_put Alloc.ok SymTable_new [97] 1).2 [97] 1
    (put_wf Alloc.ok wf_new [97] 1) (by decide) (by decide) Alloc.ok 3

/-! ## Filling a fresh table up to its first capacity -/

theorem fillKey_inj (i j : Nat) (h : fillKey i = fillKey j) : i = j := by
  unfold fillKey at h
  simp only [List.cons.injEq, and_true] at h
  omega

theorem filled_succ (n : Nat) :
    filled (n + 1) = (SymTable_put Alloc.ok (filled n) (fillKey n) (n + 1)).2 := by
  unfold filled fillOps
  rw [List.range_succ, List.map_append, run_append]
  rfl

theorem filled_reachable (n : Nat) : Reachable (filled n) := ⟨fillOps n, rfl⟩

/-- Up to the first capacity the filled table has not grown and holds exactly the keys put. -/
theorem filled_spec (n : Nat) (hn : n ≤ 509) :
    WF (filled n) ∧ (filled n).length = n ∧ (filled n).bucketIndex = 0 ∧
      ∀ e, e ∈ entries (filled n) ↔ ∃ i, i < n ∧ e = ⟨fillKey i, i + 1⟩ := by
  induction n with
  | zero =>
    refine ⟨wf_new, rfl, rfl, ?_⟩
    intro e
    show e ∈ entries SymTable_new ↔ _
    rw [entries_new]
    simp
  | succ n ih =>
    obtain ⟨hwf, hlen, hidx, hmem⟩ := ih (by omega)
    have habs : SymTable_contains (filled n) (fillKey n) = 0 := by
      rw [wf_contains_zero_iff hwf]
      intro hin
      obtain ⟨e, he, hk⟩ := List.mem_map.mp hin
      obtain ⟨i, hi, rfl⟩ := (hmem e).mp he
      have := fillKey_inj _ _ hk
      omega
    have hg : grown Alloc.ok (filled n) = filled n := by
      unfold grown
      rw [if_neg]
      rw [hlen, hidx]
      show ¬ n = 509
      omega
    have hput := put_absent Alloc.ok hwf (fillKey n) (n + 1) habs rfl rfl
    rw [hg] at hput
    have hwf' : WF (filled (n + 1)) := by
      rw [filled_succ]; exact put_wf _ hwf _ _
    rw [filled_succ, hput]
    rw [filled_succ, hput] at hwf'
    refine ⟨hwf', ?_, hidx, ?_⟩
    · show (filled n).length + 1 = n + 1
      rw [hlen]
    · intro e
      show e ∈ entries (linkHead (filled n) (fillKey n) (n + 1)) ↔ _
      rw [linkHead_mem hwf, hmem]
      constructor
      · rintro (rfl | ⟨i, hi, rfl⟩)
        · exact ⟨n, by omega, rfl⟩
        · exact ⟨i, by omega, rfl⟩
      · rintro ⟨i, hi, rfl⟩
        by_cases hin : i = n
        · subst hin; exact Or.inl rfl
        · exact Or.inr ⟨i, by omega, rfl⟩

theorem filled_contains (n i : Nat) (hn : n ≤ 509) (hi : i < n) :
    SymTable_contains (filled n) (fillKey i) = 1 := by
  obtain ⟨hwf, _, _, hmem⟩ := filled_spec n hn
  rw [wf_contains_iff hwf]
  exact List.mem_map.mpr ⟨⟨fillKey i, i + 1⟩, (hmem _).mpr ⟨i, hi, rfl⟩, rfl⟩

/-! ## Failed puts -/

theorem put_zero_table (a : Alloc) (t : SymTable) (k : Key) (v : Value)
    (h0 : (SymTable_put a t k v).1 = 0) : (SymTable_put a t k v).2 = grown a t := by
  rcases put_result a t k v with hp | ⟨_, hp⟩
  · rw [hp]
  · rw [hp] at h0
    exact absurd h0 Int.one_ne_zero

/-- C4, as amended: when `SymTable_put` returns 0 on a well-formed table, the
table after the call is the table left by the growth step of the call.  It is
exactly the table before the call unless the call was made with
`length == bucketCounts[bucketIndex]`, `bucketIndex < 7` and the new array
allocated; in that case it is `expand` of the table.  In both cases
`SymTable_getLength` and the results of `SymTable_get` and `SymTable_contains`
for every key are those before the call. -/
theorem failed_put_effect (a : Alloc) (t : SymTable) (k : Key) (v : Value)
    (hwf : WF t) (h0 : (SymTable_put a t k v).1 = 0) :
    (¬ (t.length = bucketCount t.bucketIndex ∧ t.bucketIndex + 1 < numBucketCounts ∧
          a.grow = true) → (SymTable_put a t k v).2 = t) ∧
    ((t.length = bucketCount t.bucketIndex ∧ t.bucketIndex + 1 < numBucketCounts ∧
          a.grow = true) → (SymTable_put a t k v).2 = expand true t) ∧
    SymTable_getLength (SymTable_put a t k v).2 = SymTable_getLength t ∧
    ∀ k', SymTable_get (SymTable_put a t k v).2 k' = SymTable_get t k' ∧
      SymTable_contains (SymTable_put a t k v).2 k' = SymTable_contains t k' := by
  rw [put_zero_table a t k v h0]
  refine ⟨?_, ?_, grown_length a t, fun k' => grown_lookup a hwf k'⟩
  · intro hno
    rcases grown_cases a t with hg | ⟨h1, h2, h3, _⟩
    · exact hg
    · exact absurd ⟨h1, h3, h2⟩ hno
  · rintro ⟨h1, _, h3⟩
    unfold grown
    rw [if_pos h1, h3]

/-- Witness for C4 as amended: a second put of key "a" into the table that holds "a". -/
theorem failed_put_effect_witness :
    (¬ ((SymTable_put Alloc.ok SymTable_new [97] 1).2.length
            = bucketCount (SymTable_put Alloc.ok SymTable_new [97] 1).2.bucketIndex ∧
          (SymTable_put Alloc.ok SymTable_new [97] 1).2.bucketIndex + 1 < numBucketCounts ∧
          Alloc.ok.grow = true) →
        (SymTable_put Alloc.ok (SymTable_put Alloc.ok SymTable_new [97] 1).2 [97] 3).2
          = (SymTable_put Alloc.ok SymTable_new [97] 1).2) ∧
    (((SymTable_put Alloc.ok SymTable_new [97] 1).2.length
            = bucketCount (SymTable_put Alloc.ok SymTable_new [97] 1).2.bucketIndex ∧
          (SymTable_put Alloc.ok SymTable_new [97] 1).2.bucketIndex + 1 < numBucketCounts ∧
          Alloc.ok.grow = true) →
        (SymTable_put Alloc.ok (SymTable_put Alloc.ok SymTable_new [97] 1).2 [97] 3).2
          = expand true (SymTable_put Alloc.ok SymTable_new [97] 1).2) ∧
    SymTable_getLength (SymTable_put Alloc.ok (SymTable_put Alloc.ok SymTable_new [97] 1).2 [97] 3).2
      = SymTable_getLength (SymTable_put Alloc.ok SymTable_new [97] 1).2 ∧
    ∀ k', SymTable_get (SymTable_put Alloc.ok (SymTable_put Alloc.ok SymTable_new [97] 1).2 [97] 3).2 k'
        = SymTable_get (SymTable_put Alloc.ok SymTable_new [97] 1).2 k' ∧
      SymTable_contains
          (SymTable_put Alloc.ok (SymTable_put Alloc.ok SymTable_new [97] 1).2 [97] 3).2 k'
        = SymTable_contains (SymTable_put Alloc.ok SymTable_new [97] 1).2 k' :=
  failed_put_effect Alloc.ok (SymTable_put Alloc.ok SymTable_new [97] 1).2 [97] 3
    (put_wf Alloc.ok wf_new [97] 1) (by decide)

/-- Counterexample to C4 as stated: the table filled with 509 keys is reachable
and at its capacity; a put of a key it already holds returns 0, yet the call has
grown the table first: the schedule index has moved from 0 to 1, so the table
after the call is not the table before it. -/
theorem failed_put_not_atomic :
    Reachable (filled 509) ∧ WF (filled 509) ∧
    (filled 509).length = bucketCount (filled 509).bucketIndex ∧
    (SymTable_put Alloc.ok (filled 509) (fillKey 0) 7).1 = 0 ∧
    (filled 509).bucketIndex = 0 ∧
    (SymTable_put Alloc.ok (filled 509) (fillKey 0) 7).2.bucketIndex = 1 ∧
    (SymTable_put Alloc.ok (filled 509) (fillKey 0) 7).2 ≠ filled 509 := by
  obtain ⟨hwf, hlen, hidx, _⟩ := filled_spec 509 (Nat.le_refl _)
  have hc := filled_contains 509 0 (Nat.le_refl _) (by decide)
  have hput := put_present Alloc.ok hwf (fillKey 0) 7 hc
  have hcap : (filled 509).length = bucketCount (filled 509).bucketIndex := by
    rw [hlen, hidx]; rfl
  have hgrow : grown Alloc.ok (filled 509) = expand true (filled 509) := by
    unfold grown
    rw [if_pos hcap]; rfl
  have hnew : (SymTable_put Alloc.ok (filled 509) (fillKey 0) 7).2.bucketIndex = 1 := by
    rw [hput, hgrow, expand_of_grow _ (by rw [hidx]; decide)]
    show (filled 509).bucketIndex + 1 = 1
    rw [hidx]
  refine ⟨filled_reachable 509, hwf, hcap, by rw [hput], hidx, hnew, ?_⟩
  intro heq
  rw [heq, hidx] at hnew
  exact absurd hnew (by decide)

/-! ## Replace and remove -/

theorem mem_map_setValue_other (k : Key) (v : Value) (l : List Node) (k' : Key) (x : Value)
    (hne : k' ≠ k) : (⟨k', x⟩ : Node) ∈ l.map (setValue k v) ↔ (⟨k', x⟩ : Node) ∈ l := by
  rw [List.mem_map]
  constructor
  · rintro ⟨e, he, heq⟩
    have hk : e.key = k' := by
      have := congrArg Node.key heq
      rwa [setValue_key] at this
    have : setValue k v e = e := by
      unfold setValue
      rw [if_neg (fun h => hne (hk ▸ h.symm))]
    rw [this] at heq
    exact heq ▸ he
  · intro he
    refine ⟨_, he, ?_⟩
    unfold setValue
    rw [if_neg (fun h => hne h.symm)]

theorem mem_filter_keyNe_other (k : Key) (l : List Node) (k' : Key) (x : Value) (hne : k' ≠ k) :
    (⟨k', x⟩ : Node) ∈ l.filter (keyNe k) ↔ (⟨k', x⟩ : Node) ∈ l := by
  rw [List.mem_filter]
  constructor
  · exact fun h => h.1
  · intro h
    exact ⟨h, by simp only [keyNe, decide_eq_true_eq]; exact hne⟩

theorem replace_lookup_other {t : SymTable} (h : WF t) (k : Key) (v : Value) (k' : Key)
    (hne : k' ≠ k) :
    SymTable_get (SymTable_replace t k v).2 k' = SymTable_get t k' ∧
      SymTable_contains (SymTable_replace t k v).2 k' = SymTable_contains t k' := by
  rcases contains_eq_zero_or_one t k with hc | hc
  · rw [replace_absent t k v hc]
    exact ⟨rfl, rfl⟩
  · apply lookup_congr h (replace_wf h k v) k'
    intro x
    rw [replace_present_entries h k v hc]
    exact (mem_map_setValue_other k v _ k' x hne).symm

theorem replace_get_self {t : SymTable} (h : WF t) (k : Key) (v : Value)
    (hc : SymTable_contains t k = 1) : SymTable_get (SymTable_replace t k v).2 k = v := by
  have hmem : (⟨k, v⟩ : Node) ∈ entries (SymTable_replace t k v).2 := by
    rw [replace_present_entries h k v hc]
    refine List.mem_map.mpr ⟨_, mem_of_contains k hc, ?_⟩
    simp [setValue]
  exact wf_get_of_mem (replace_wf h k v) ⟨k, v⟩ hmem

theorem remove_lookup_other {t : SymTable} (h : WF t) (k : Key) (k' : Key) (hne : k' ≠ k) :
    SymTable_get (SymTable_remove t k).2 k' = SymTable_get t k' ∧
      SymTable_contains (SymTable_remove t k).2 k' = SymTable_contains t k' := by
  rcases contains_eq_zero_or_one t k with hc | hc
  · rw [remove_absent t k hc]
    exact ⟨rfl, rfl⟩
  · apply lookup_congr h (remove_wf h k) k'
    intro x
    rw [remove_present_entries h k hc]
    exact (mem_filter_keyNe_other k _ k' x hne).symm

theorem remove_contains_self {t : SymTable} (h : WF t) (k : Key) :
    SymTable_contains (SymTable_remove t k).2 k = 0 := by
  rcases contains_eq_zero_or_one t k with hc | hc
  · rw [remove_absent t k hc]; exact hc
  · rw [wf_contains_zero_iff (remove_wf h k)]
    unfold keys
    rw [remove_present_entries h k hc]
    intro hin
    obtain ⟨e, he, hk⟩ := List.mem_map.mp hin
    have := (List.mem_filter.mp he).2
    simp only [keyNe, decide_eq_true_eq] at this
    exact this hk

/-- C5: on a well-formed table, replacing the value of a key present with value
`v` returns `v`; afterwards `SymTable_get` of the key returns the new value, and
the length, the schedule index and the lookups of every other key are unchanged.
Replacing the value of an absent key returns `NULL` and leaves the table
unchanged, so the key is still absent. -/
theorem replace_semantics (t : SymTable) (k : Key) (v' : Value) (hwf : WF t) :
    (∀ v, SymTable_contains t k = 1 → SymTable_get t k = v →
      (SymTable_replace t k v').1 = v ∧
      SymTable_get (SymTable_replace t k v').2 k = v' ∧
      SymTable_getLength (SymTable_replace t k v').2 = SymTable_getLength t ∧
      (SymTable_replace t k v').2.bucketIndex = t.bucketIndex ∧
      ∀ k', k' ≠ k →
        SymTable_get (SymTable_replace t k v').2 k' = SymTable_get t k' ∧
        SymTable_contains (SymTable_replace t k v').2 k' = SymTable_contains t k') ∧
    (SymTable_contains t k = 0 →
      SymTable_replace t k v' = (NULL, t) ∧
      SymTable_contains (SymTable_replace t k v').2 k = 0) := by
  constructor
  · intro v hc hv
    refine ⟨?_, replace_get_self hwf k v' hc, replace_length t k v', replace_bucketIndex t k v',
      fun k' hne => replace_lookup_other hwf k v' k' hne⟩
    rw [replace_present hwf k v' hc]
    exact hv
  · intro hc
    rw [replace_absent t k v' hc]
    exact ⟨rfl, hc⟩

/-- Witness for C5: in the table holding "a" with value 1, replacing the value of
"a" by 9 and replacing the value of the absent key "b". -/
theorem replace_semantics_witness :
    ((SymTable_replace (SymTable_put Alloc.ok SymTable_new [97] 1).2 [97] 9).1 = 1 ∧
      SymTable_get (SymTable_replace (SymTable_put Alloc.ok SymTable_new [97] 1).2 [97] 9).2 [97]
        = 9) ∧
    SymTable_replace (SymTable_put Alloc.ok SymTable_new [97] 1).2 [98] 9
      = (NULL, (SymTable_put Alloc.ok SymTable_new [97] 1).2) := by
  have h := replace_semantics (SymTable_put Alloc.ok SymTable_new [97] 1).2 [97] 9
    (put_wf Alloc.ok wf_new [97] 1)
  have h' := replace_semantics (SymTable_put Alloc.ok SymTable_new [97] 1).2 [98] 9
    (put_wf Alloc.ok wf_new [97] 1)
  exact ⟨⟨(h.1 1 (by decide) (by decide)).1, (h.1 1 (by decide) (by decide)).2.1⟩,
    (h'.2 (by decide)).1⟩

/-- C6: on a well-formed table, removing a key present with value `v` returns
`v` and decreases the length by exactly 1; afterwards the key is absent, the
lookups of every other key are unchanged, the schedule index is unchanged, and
every chain is the chain it was with the node of the removed key dropped, the
remaining nodes in their order.  The node may stand anywhere in its chain. -/
theorem remove_present_semantics (t : SymTable) (k : Key) (v : Value)
    (hwf : WF t) (hpres : SymTable_contains t k = 1) (hval : SymTable_get t k = v) :
    (SymTable_remove t k).1 = v ∧
    SymTable_getLength (SymTable_remove t k).2 + 1 = SymTable_getLength t ∧
    SymTable_contains (SymTable_remove t k).2 k = 0 ∧
    (∀ k', k' ≠ k →
      SymTable_get (SymTable_remove t k).2 k' = SymTable_get t k' ∧
      SymTable_contains (SymTable_remove t k).2 k' = SymTable_contains t k') ∧
    (SymTable_remove t k).2.bucketIndex = t.bucketIndex ∧
    (SymTable_remove t k).2.buckets = t.buckets.map (List.filter (keyNe k)) ∧
    entries (SymTable_remove t k).2 = (entries t).filter (keyNe k) := by
  have hl := remove_length hwf k
  rw [hpres] at hl
  refine ⟨?_, hl, remove_contains_self hwf k, fun k' hne => remove_lookup_other hwf k k' hne,
    ?_, ?_, remove_present_entries hwf k hpres⟩
  · rw [remove_present hwf k hpres]; exact hval
  · rw [remove_present hwf k hpres]
  · rw [remove_present hwf k hpres]

/-- Witness for C6: removing the middle node of a chain of three. -/
theorem remove_present_semantics_witness :
    chainOfThree.buckets.getD 1 [] = [⟨[1], 3⟩, ⟨[1, 63], 2⟩, ⟨[2, 125], 1⟩] ∧
    (SymTable_remove chainOfThree [1, 63]).1 = 2 ∧
    SymTable_getLength (SymTable_remove chainOfThree [1, 63]).2 + 1
      = SymTable_getLength chainOfThree ∧
    SymTable_contains (SymTable_remove chainOfThree [1, 63]).2 [1, 63] = 0 ∧
    (SymTable_remove chainOfThree [1, 63]).2.buckets
      = chainOfThree.buckets.map (List.filter (keyNe [1, 63])) := by
  have h := remove_present_semantics chainOfThree [1, 63] 2 (run_wf wf_new _)
    (by decide) (by decide)
  exact ⟨by decide, h.1, h.2.1, h.2.2.1, h.2.2.2.2.2.1⟩

theorem contains_new (k : Key) : SymTable_contains SymTable_new k = 0 := by
  rw [wf_contains_zero_iff wf_new]
  unfold keys
  rw [entries_new]
  simp

/-- C7: on a well-formed table, removing an absent key returns `NULL` and leaves
the table (buckets, length, schedule index) unchanged; this holds in particular
for every key on the empty table of `SymTable_new`.  Removing a present key twice
in a row returns the stored value the first time and `NULL` the second time, and
the length has decreased by exactly 1 overall. -/
theorem remove_absent_semantics (t : SymTable) (k : Key) (hwf : WF t) :
    (SymTable_contains t k = 0 → SymTable_remove t k = (NULL, t)) ∧
    (∀ k', SymTable_remove SymTable_new k' = (NULL, SymTable_new)) ∧
    (SymTable_contains t k = 1 →
      (SymTable_remove t k).1 = SymTable_get t k ∧
      (SymTable_remove (SymTable_remove t k).2 k).1 = NULL ∧
      SymTable_getLength (SymTable_remove (SymTable_remove t k).2 k).2 + 1
        = SymTable_getLength t) := by
  refine ⟨remove_absent t k, fun k' => remove_absent _ k' (contains_new k'), ?_⟩
  intro hc
  have h2 := remove_absent _ k (remove_contains_self hwf k)
  have hl := remove_length hwf k
  rw [hc] at hl
  rw [h2]
  refine ⟨?_, rfl, hl⟩
  rw [remove_present hwf k hc]

/-- Witness for C7: removing the absent key "b" and removing "a" twice, in the
table that holds "a" with value 1. -/
theorem remove_absent_semantics_witness :
    SymTable_remove (SymTable_put Alloc.ok SymTable_new [97] 1).2 [98]
      = (NULL, (SymTable_put Alloc.ok SymTable_new [97] 1).2) ∧
    (SymTable_remove (SymTable_put Alloc.ok SymTable_new [97] 1).2 [97]).1 = 1 ∧
    (SymTable_remove (SymTable_remove (SymTable_put Alloc.ok SymTable_new [97] 1).2 [97]).2
      [97]).1 = NULL := by
  have h := remove_absent_semantics (SymTable_put Alloc.ok SymTable_new [97] 1).2 [98]
    (put_wf Alloc.ok wf_new [97] 1)
  have h' := remove_absent_semantics (SymTable_put Alloc.ok SymTable_new [97] 1).2 [97]
    (put_wf Alloc.ok wf_new [97] 1)
  have h1 := h'.2.2 (by decide)
  exact ⟨h.1 (by decide), h1.1.trans (by decide), h1.2.1⟩

/-! ## Growth preserves the data -/

theorem put_lookup_other (a : Alloc) {t : SymTable} (h : WF t) (k : Key) (v : Value) (k' : Key)
    (hne : k' ≠ k) :
    SymTable_get (SymTable_put a t k v).2 k' = SymTable_get t k' ∧
      SymTable_contains (SymTable_put a t k v).2 k' = SymTable_contains t k' := by
  have h2 := grown_lookup a h k'
  rcases put_result a t k v with hp | ⟨hc, hp⟩
  · rw [hp]; exact h2
  · rw [hp]
    have hk := (wf_contains_zero_iff (grown_wf a h) k).mp hc
    have h1 := linkHead_lookup_other (grown_wf a h) k v hk k' hne
    exact ⟨h1.1.trans h2.1, h1.2.trans h2.2⟩

theorem put_get_self_aux (a : Alloc) {t : SymTable} (h : WF t) (k : Key) (v : Value)
    (habs : SymTable_contains t k = 0) (hn : a.node = true) (hk : a.keyCopy = true) :
    SymTable_get (SymTable_put a t k v).2 k = v := by
  have hg := grown_wf a h
  have hk' : k ∉ keys (grown a t) := by
    rw [← wf_contains_zero_iff hg, (grown_lookup a h k).2]
    exact habs
  rw [put_absent a h k v habs hn hk]
  exact linkHead_get_self hg k v hk'

theorem putOps_lookup_other {t : SymTable} (h : WF t) (puts : List (Alloc × Key × Value))
    (k : Key) (hk : k ∉ puts.map (fun p => p.2.1)) :
    SymTable_get (run t (putOps puts)) k = SymTable_get t k ∧
      SymTable_contains (run t (putOps puts)) k = SymTable_contains t k := by
  induction puts generalizing t with
  | nil => exact ⟨rfl, rfl⟩
  | cons p puts ih =>
    simp only [List.map_cons, List.mem_cons, not_or] at hk
    have h1 := put_lookup_other p.1 h p.2.1 p.2.2 k hk.1
    have h2 := ih (put_wf p.1 h p.2.1 p.2.2) hk.2
    exact ⟨h2.1.trans h1.1, h2.2.trans h1.2⟩

theorem putOps_get {t : SymTable} (h : WF t) (puts : List (Alloc × Key × Value))
    (hok : ∀ p ∈ puts, p.1.node = true ∧ p.1.keyCopy = true)
    (hnd : (puts.map (fun p => p.2.1)).Nodup)
    (habs : ∀ p ∈ puts, SymTable_contains t p.2.1 = 0) :
    ∀ p ∈ puts, SymTable_get (run t (putOps puts)) p.2.1 = p.2.2 := by
  induction puts generalizing t with
  | nil => intro p hp; simp at hp
  | cons q puts ih =>
    simp only [List.map_cons, List.nodup_cons] at hnd
    have hq := hok q (List.mem_cons_self _ _)
    have hput := put_get_self_aux q.1 h q.2.1 q.2.2 (habs q (List.mem_cons_self _ _)) hq.1 hq.2
    have hwf' := put_wf q.1 h q.2.1 q.2.2
    intro p hp
    show SymTable_get (run (SymTable_put q.1 t q.2.1 q.2.2).2 (putOps puts)) p.2.1 = p.2.2
    rcases List.mem_cons.mp hp with rfl | hmem
    · rw [(putOps_lookup_other hwf' puts _ hnd.1).1]
      exact hput
    · apply ih hwf' (fun r hr => hok r (List.mem_cons_of_mem _ hr)) hnd.2 _ p hmem
      intro r hr
      have hne : r.2.1 ≠ q.2.1 := by
        intro heq
        exact hnd.1 (heq ▸ List.mem_map_of_mem (fun p => p.2.1) hr)
      rw [(put_lookup_other q.1 h q.2.1 q.2.2 r.2.1 hne).2]
      exact habs r (List.mem_cons_of_mem _ hr)

/-- C8: on a well-formed table with `bucketIndex < 7`, `expand` with the new
array allocated yields a table with the same multiset of nodes, the same length,
`bucketIndex + 1`, an array of `bucketCounts[bucketIndex + 1]` buckets, and every
node in the bucket its key hashes to for that count; so `SymTable_get` and
`SymTable_contains` return the same for every key.  After putting any number of
distinct keys into a fresh table, across whatever growth the puts trigger, every
key put is retrieved with its value. -/
theorem rehash_preserves_data (t : SymTable) (hwf : WF t) (hidx : t.bucketIndex < 7) :
    ((entries (expand true t) : List Node) : Multiset Node) = (entries t : List Node) ∧
    SymTable_getLength (expand true t) = SymTable_getLength t ∧
    (expand true t).bucketIndex = t.bucketIndex + 1 ∧
    (expand true t).buckets.length = bucketCount (t.bucketIndex + 1) ∧
    (∀ i e, e ∈ (expand true t).buckets.getD i [] →
      i = SymTable_hash e.key (bucketCount (t.bucketIndex + 1))) ∧
    (∀ k, SymTable_get (expand true t) k = SymTable_get t k ∧
      SymTable_contains (expand true t) k = SymTable_contains t k) ∧
    (∀ puts : List (Alloc × Key × Value),
      (∀ p ∈ puts, p.1.node = true ∧ p.1.keyCopy = true) →
      (puts.map (fun p => p.2.1)).Nodup →
      ∀ p ∈ puts, SymTable_get (run SymTable_new (putOps puts)) p.2.1 = p.2.2) := by
  have hi : t.bucketIndex + 1 < numBucketCounts := by rw [numBucketCounts_eq]; omega
  refine ⟨Multiset.coe_eq_coe.mpr (expand_entries_perm hwf hi), expand_length true t, ?_, ?_, ?_,
    fun k => expand_lookup true hwf k, ?_⟩
  · rw [expand_of_grow t hi]
  · rw [expand_of_grow t hi]
    exact rehashAll_length _ _ _
  · intro i e he
    rw [expand_bucket hwf hi, List.mem_reverse, List.mem_filter] at he
    have := he.2
    simp only [inBucket, decide_eq_true_eq] at this
    exact this.symm
  · intro puts hok hnd
    exact putOps_get wf_new puts hok hnd (fun p _ => contains_new _)

/-- Witness for C8: growing the table whose bucket 1 holds a chain of three. -/
theorem rehash_preserves_data_witness :
    SymTable_getLength (expand true chainOfThree) = SymTable_getLength chainOfThree ∧
    (expand true chainOfThree).bucketIndex = chainOfThree.bucketIndex + 1 ∧
    (∀ k, SymTable_get (expand true chainOfThree) k = SymTable_get chainOfThree k ∧
      SymTable_contains (expand true chainOfThree) k = SymTable_contains chainOfThree k) := by
  have h := rehash_preserves_data chainOfThree (run_wf wf_new _) (by decide)
  exact ⟨h.2.1, h.2.2.1, h.2.2.2.2.2.1⟩

/-! ## Traversal completeness -/

theorem visits_keys {t : SymTable} (h : WF t) (x : Value) :
    (visits t x).map Prod.fst = keys t := by
  rw [visits_eq h, List.map_map]
  rfl

theorem countP_key_eq_one (k : Key) (l : List Key) (hnd : l.Nodup) (hk : k ∈ l) :
    l.countP (fun k' => decide (k' = k)) = 1 := by
  induction l with
  | nil => simp at hk
  | cons a l ih =>
    rw [List.nodup_cons] at hnd
    by_cases ha : a = k
    · subst ha
      rw [List.countP_cons_of_pos _ _ (by simp)]
      have : l.countP (fun k' => decide (k' = a)) = 0 := by
        rw [List.countP_eq_zero]
        intro b hb
        simp only [decide_eq_true_eq]
        exact fun hba => hnd.1 (hba ▸ hb)
      rw [this]
    · have hk' : k ∈ l := by
        rcases List.mem_cons.mp hk with h1 | h1
        · exact absurd h1.symm ha
        · exact h1
      rw [List.countP_cons_of_neg _ _ (by simp [ha])]
      exact ih hnd.2 hk'

/-- C9: on a well-formed table `SymTable_map` calls the visit function exactly
`SymTable_getLength` times, on the nodes of the table (the calls are the nodes
of the chains, each with the extra argument); every present key is visited
exactly once and with the value `SymTable_get` returns, no absent key is
visited, and every call receives the extra argument unchanged.  For any visit
function the traversal is the fold of that function over the nodes. -/
theorem map_visits_all (t : SymTable) (x : Value) (hwf : WF t) :
    (visits t x).length = SymTable_getLength t ∧
    ((visits t x : List (Key × Value × Value)) : Multiset (Key × Value × Value))
      = (((entries t).map (fun e => (e.key, e.value, x)) : List (Key × Value × Value))) ∧
    ((visits t x).map Prod.fst).Nodup ∧
    (∀ k, SymTable_contains t k = 1 →
      (visits t x).countP (fun c => decide (c.1 = k)) = 1 ∧
      (k, SymTable_get t k, x) ∈ visits t x) ∧
    (∀ k, SymTable_contains t k = 0 → k ∉ (visits t x).map Prod.fst) ∧
    (∀ c ∈ visits t x, c.2.2 = x) ∧
    (∀ (σ : Type) (f : Key → Value → Value → σ → σ) (s : σ),
      SymTable_map t f x s = (entries t).foldl (fun s e => f e.key e.value x s) s) := by
  refine ⟨?_, ?_, ?_, ?_, ?_, ?_, fun σ f s => map_eq_foldl t hwf.2.1 f x s⟩
  · rw [visits_eq hwf, List.length_map]
    exact hwf.2.2.2.2.symm
  · rw [visits_eq hwf]
  · rw [visits_keys hwf]
    exact hwf.2.2.2.1
  · intro k hc
    constructor
    · have := countP_key_eq_one k (keys t) hwf.2.2.2.1 ((wf_contains_iff hwf k).mp hc)
      rw [← visits_keys hwf x, List.countP_map] at this
      exact this
    · rw [visits_eq hwf]
      exact List.mem_map.mpr ⟨_, mem_of_contains k hc, rfl⟩
  · intro k hc
    rw [visits_keys hwf]
    exact (wf_contains_zero_iff hwf k).mp hc
  · intro c hc
    rw [visits_eq hwf] at hc
    obtain ⟨e, _, rfl⟩ := List.mem_map.mp hc
    rfl

/-- Witness for C9: the traversal of the table whose bucket 1 holds a chain of three. -/
theorem map_visits_all_witness :
    visits chainOfThree 5 = [([1], 3, 5), ([1, 63], 2, 5), ([2, 125], 1, 5)] ∧
    (visits chainOfThree 5).length = SymTable_getLength chainOfThree ∧
    (∀ k, SymTable_contains chainOfThree k = 0 → k ∉ (visits chainOfThree 5).map Prod.fst) ∧
    (∀ c ∈ visits chainOfThree 5, c.2.2 = 5) := by
  have hwf : WF chainOfThree := run_wf wf_new _
  have h := map_visits_all chainOfThree 5 hwf
  have hv : visits chainOfThree 5 = [([1], 3, 5), ([1, 63], 2, 5), ([2, 125], 1, 5)] := by
    rw [visits_eq hwf]
    set_option maxRecDepth 20000 in decide
  exact ⟨hv, h.1, h.2.2.2.2.1, h.2.2.2.2.2.1⟩

/-! ## Traversal order -/

theorem getD_sublist_flatten {α : Type} (l : List (List α)) (i : Nat) :
    List.Sublist (l.getD i []) l.flatten := by
  induction l generalizing i with
  | nil => exact List.nil_sublist _
  | cons a l ih =>
    cases i with
    | zero => exact List.sublist_append_left _ _
    | succ i => exact (ih i).trans (List.sublist_append_right _ _)

/-- A node of an earlier bucket precedes a node of a later bucket in the concatenation. -/
theorem pair_sublist_flatten {α : Type} (l : List (List α)) (i j : Nat) (hij : i < j) (x y : α)
    (hx : x ∈ l.getD i []) (hy : y ∈ l.getD j []) : List.Sublist [x, y] l.flatten := by
  induction l generalizing i j with
  | nil => simp at hx
  | cons a l ih =>
    cases j with
    | zero => omega
    | succ j =>
      cases i with
      | zero =>
        have h1 : List.Sublist [x] a := List.singleton_sublist.mpr hx
        have h2 : List.Sublist [y] l.flatten :=
          (List.singleton_sublist.mpr hy).trans (getD_sublist_flatten l j)
        exact h1.append h2
      | succ i =>
        exact (ih i j (by omega) hx hy).trans (List.sublist_append_right _ _)

/-- In a list without repetition two elements occur in one order only. -/
theorem pair_sublist_swap {α : Type} (a b : α) (l : List α) (hnd : l.Nodup)
    (h1 : List.Sublist [a, b] l) (h2 : List.Sublist [b, a] l) : False := by
  induction l with
  | nil => cases h1
  | cons x l ih =>
    rw [List.nodup_cons] at hnd
    cases h1 with
    | cons _ h1' =>
      cases h2 with
      | cons _ h2' => exact ih hnd.2 h1' h2'
      | cons₂ _ h2' =>
        exact hnd.1 (h1'.subset (List.mem_cons_of_mem _ (List.mem_singleton_self _)))
    | cons₂ _ h1' =>
      cases h2 with
      | cons _ h2' =>
        exact hnd.1 (h2'.subset (List.mem_cons_of_mem _ (List.mem_singleton_self _)))
      | cons₂ _ h2' =>
        exact hnd.1 (h1'.subset (List.mem_singleton_self _))

theorem linkHead_bucket {t : SymTable} (h : WF t) (k : Key) (v : Value) (i : Nat) :
    (linkHead t k v).buckets.getD i [] =
      if i = SymTable_hash k (bucketCount t.bucketIndex) then ⟨k, v⟩ :: t.buckets.getD i []
      else t.buckets.getD i [] := by
  unfold linkHead
  by_cases hi : i = SymTable_hash k (bucketCount t.bucketIndex)
  · rw [if_pos hi, hi]
    exact getD_set_self _ _ _ _ (wf_hash_lt h k)
  · rw [if_neg hi]
    exact getD_set_other _ _ _ _ _ hi

theorem linkHead_bucketIndex (t : SymTable) (k : Key) (v : Value) :
    (linkHead t k v).bucketIndex = t.bucketIndex :=
  rfl

theorem expand_grow_bucketIndex (t : SymTable) (h : t.bucketIndex + 1 < numBucketCounts) :
    (expand true t).bucketIndex = t.bucketIndex + 1 := by
  rw [expand_of_grow t h]

theorem grown_bucketIndex_le (a : Alloc) (t : SymTable) :
    t.bucketIndex ≤ (grown a t).bucketIndex := by
  rcases grown_cases a t with hg | ⟨_, _, hi, hg⟩
  · rw [hg]
  · rw [hg, expand_of_grow t hi]
    exact Nat.le_succ _

theorem grown_eq_of_bucketIndex (a : Alloc) (t : SymTable)
    (h : (grown a t).bucketIndex = t.bucketIndex) : grown a t = t := by
  rcases grown_cases a t with hg | ⟨_, _, hi, hg⟩
  · exact hg
  · rw [hg, expand_of_grow t hi] at h
    exact absurd h (Nat.succ_ne_self _)

theorem put_bucketIndex (a : Alloc) (t : SymTable) (k : Key) (v : Value) :
    (SymTable_put a t k v).2.bucketIndex = (grown a t).bucketIndex := by
  rcases put_result a t k v with hp | ⟨_, hp⟩
  · rw [hp]
  · rw [hp]; rfl

theorem remove_bucketIndex (t : SymTable) (k : Key) :
    (SymTable_remove t k).2.bucketIndex = t.bucketIndex := by
  rw [remove_unfold]
  split <;> rfl

theorem step_bucketIndex_le (t : SymTable) (op : Op) :
    t.bucketIndex ≤ (step t op).bucketIndex := by
  cases op with
  | put a k v =>
    show _ ≤ (SymTable_put a t k v).2.bucketIndex
    rw [put_bucketIndex]; exact grown_bucketIndex_le a t
  | replace k v => exact Nat.le_of_eq (replace_bucketIndex t k v).symm
  | contains k => exact Nat.le_refl _
  | get k => exact Nat.le_refl _
  | remove k => exact Nat.le_of_eq (remove_bucketIndex t k).symm
  | map x => exact Nat.le_refl _

theorem run_bucketIndex_le (t : SymTable) (ops : List Op) :
    t.bucketIndex ≤ (run t ops).bucketIndex := by
  induction ops generalizing t with
  | nil => exact Nat.le_refl _
  | cons op ops ih => exact Nat.le_trans (step_bucketIndex_le t op) (ih (step t op))

theorem setValue_eta (k : Key) (v : Value) (k' : Key) (x : Value) :
    setValue k v ⟨k', x⟩ = ⟨k', (setValue k v ⟨k', x⟩).value⟩ := by
  have h := setValue_key k v ⟨k', x⟩
  cases hn : setValue k v ⟨k', x⟩ with
  | mk key value =>
    rw [hn] at h
    simp only at h
    rw [h]

/-- A call that neither grows the table nor removes `k1` or `k2` keeps a node of
`k2` in front of a node of `k1` in the chain of bucket `b`. -/
theorem step_keeps_order {s : SymTable} (hs : WF s) (k1 k2 : Key) (b : Nat) (op : Op)
    (hop : op ≠ .remove k1 ∧ op ≠ .remove k2)
    (hidx : (step s op).bucketIndex = s.bucketIndex)
    (hinv : ∃ v1 v2, List.Sublist [(⟨k2, v2⟩ : Node), ⟨k1, v1⟩] (s.buckets.getD b [])) :
    ∃ v1 v2, List.Sublist [(⟨k2, v2⟩ : Node), ⟨k1, v1⟩] ((step s op).buckets.getD b []) := by
  obtain ⟨v1, v2, hsub⟩ := hinv
  cases op with
  | contains k => exact ⟨v1, v2, hsub⟩
  | get k => exact ⟨v1, v2, hsub⟩
  | map x => exact ⟨v1, v2, hsub⟩
  | put a k v =>
    have hg : grown a s = s := by
      apply grown_eq_of_bucketIndex
      rw [← put_bucketIndex a s k v]
      exact hidx
    show ∃ v1 v2, List.Sublist _ ((SymTable_put a s k v).2.buckets.getD b [])
    rcases put_result a s k v with hp | ⟨_, hp⟩
    · rw [hp, hg]; exact ⟨v1, v2, hsub⟩
    · rw [hp, hg]
      show ∃ v1 v2, List.Sublist _ ((linkHead s k v).buckets.getD b [])
      rw [linkHead_bucket hs]
      split
      · exact ⟨v1, v2, hsub.trans (List.sublist_cons_self _ _)⟩
      · exact ⟨v1, v2, hsub⟩
  | replace k v =>
    show ∃ v1 v2, List.Sublist _ ((SymTable_replace s k v).2.buckets.getD b [])
    rcases contains_eq_zero_or_one s k with hc | hc
    · rw [replace_absent s k v hc]; exact ⟨v1, v2, hsub⟩
    · rw [replace_present hs k v hc]
      show ∃ v1 v2, List.Sublist _ ((s.buckets.map (List.map (setValue k v))).getD b [])
      rw [getD_map_chain _ _ rfl]
      have := hsub.map (setValue k v)
      simp only [List.map_cons, List.map_nil] at this
      rw [setValue_eta k v k2 v2, setValue_eta k v k1 v1] at this
      exact ⟨_, _, this⟩
  | remove k =>
    have hk1 : k1 ≠ k := fun h => hop.1 (by rw [h])
    have hk2 : k2 ≠ k := fun h => hop.2 (by rw [h])
    show ∃ v1 v2, List.Sublist _ ((SymTable_remove s k).2.buckets.getD b [])
    rcases contains_eq_zero_or_one s k with hc | hc
    · rw [remove_absent s k hc]; exact ⟨v1, v2, hsub⟩
    · rw [remove_present hs k hc]
      show ∃ v1 v2, List.Sublist _ ((s.buckets.map (List.filter (keyNe k))).getD b [])
      rw [getD_map_chain _ _ rfl]
      have := hsub.filter (keyNe k)
      have h1 : keyNe k ⟨k1, v1⟩ = true := by simp only [keyNe, decide_eq_true_eq]; exact hk1
      have h2 : keyNe k ⟨k2, v2⟩ = true := by simp only [keyNe, decide_eq_true_eq]; exact hk2
      rw [List.filter_cons_of_pos h2, List.filter_cons_of_pos h1, List.filter_nil] at this
      exact ⟨v1, v2, this⟩

theorem run_keeps_order {s : SymTable} (hs : WF s) (k1 k2 : Key) (b : Nat) (ops : List Op)
    (hop : ∀ op ∈ ops, op ≠ .remove k1 ∧ op ≠ .remove k2)
    (hidx : (run s ops).bucketIndex = s.bucketIndex)
    (hinv : ∃ v1 v2, List.Sublist [(⟨k2, v2⟩ : Node), ⟨k1, v1⟩] (s.buckets.getD b [])) :
    ∃ v1 v2, List.Sublist [(⟨k2, v2⟩ : Node), ⟨k1, v1⟩] ((run s ops).buckets.getD b []) := by
  induction ops generalizing s with
  | nil => exact hinv
  | cons op ops ih =>
    have h1 := step_bucketIndex_le s op
    have h2 := run_bucketIndex_le (step s op) ops
    have hrun : run s (op :: ops) = run (step s op) ops := rfl
    rw [hrun] at hidx ⊢
    have hstep : (step s op).bucketIndex = s.bucketIndex := by omega
    exact ih (step_wf hs op) (fun o ho => hop o (List.mem_cons_of_mem _ ho))
      (by rw [hidx, hstep])
      (step_keeps_order hs k1 k2 b op (hop op (List.mem_cons_self _ _)) hstep hinv)

theorem visits_by_bucket {t : SymTable} (h : WF t) (x : Value) :
    visits t x =
      ((List.range (bucketCount t.bucketIndex)).map
        (fun i => (t.buckets.getD i []).map (fun e => (e.key, e.value, x)))).flatten := by
  rw [visits_eq h]
  unfold entries
  rw [List.map_flatten, ← h.2.1]
  conv_lhs => rw [← map_range_getD t.buckets [], List.map_map]
  rfl

/-- C10, as amended: on a well-formed table `SymTable_map` visits the buckets in
increasing array index and each chain from its head.  If `k1` is present and
`k2` is then put with result 1, and the calls from that put on neither grow the
table nor remove `k1` or `k2`, then `k2` is visited before `k1` when both hash to
the same bucket.  A growth rebuilds every chain in the reverse of the order in
which the nodes were visited before it, so the order most-recently-inserted
first does not survive a growth. -/
theorem traversal_order (t : SymTable) (x : Value) (hwf : WF t) :
    visits t x =
      ((List.range (bucketCount t.bucketIndex)).map
        (fun i => (t.buckets.getD i []).map (fun e => (e.key, e.value, x)))).flatten ∧
    (∀ (k1 k2 : Key) (a : Alloc) (v2 : Value) (rest : List Op),
      SymTable_contains t k1 = 1 →
      (SymTable_put a t k2 v2).1 = 1 →
      (∀ op ∈ rest, op ≠ .remove k1 ∧ op ≠ .remove k2) →
      (run t (.put a k2 v2 :: rest)).bucketIndex = t.bucketIndex →
      SymTable_hash k1 (bucketCount t.bucketIndex) = SymTable_hash k2 (bucketCount t.bucketIndex) →
      List.Sublist [k2, k1] ((visits (run t (.put a k2 v2 :: rest)) x).map Prod.fst) ∧
      ¬ List.Sublist [k1, k2] ((visits (run t (.put a k2 v2 :: rest)) x).map Prod.fst)) ∧
    (t.bucketIndex + 1 < numBucketCounts →
      ∀ j, (expand true t).buckets.getD j [] =
        ((entries t).filter (inBucket (bucketCount (t.bucketIndex + 1)) j)).reverse) := by
  refine ⟨visits_by_bucket hwf x, ?_, fun hi j => expand_bucket hwf hi j⟩
  intro k1 k2 a v2 rest hc1 hput hop hidx hhash
  have hrun : run t (.put a k2 v2 :: rest) = run (SymTable_put a t k2 v2).2 rest := rfl
  have hwf1 : WF (SymTable_put a t k2 v2).2 := put_wf a hwf k2 v2
  have hwfR : WF (run t (.put a k2 v2 :: rest)) := run_wf hwf _
  have h1 := step_bucketIndex_le t (.put a k2 v2)
  have h2 := run_bucketIndex_le (SymTable_put a t k2 v2).2 rest
  rw [hrun] at hidx
  have hstep : (SymTable_put a t k2 v2).2.bucketIndex = t.bucketIndex := by
    have : (step t (.put a k2 v2)) = (SymTable_put a t k2 v2).2 := rfl
    rw [this] at h1
    omega
  have hg : grown a t = t := by
    apply grown_eq_of_bucketIndex
    rw [← put_bucketIndex a t k2 v2]
    exact hstep
  have hlink : (SymTable_put a t k2 v2).2 = linkHead t k2 v2 := by
    rcases put_result a t k2 v2 with hp | ⟨_, hp⟩
    · rw [hp] at hput
      exact absurd hput Int.zero_ne_one
    · rw [hp, hg]
  have hinit : ∃ v1 v2', List.Sublist [(⟨k2, v2'⟩ : Node), ⟨k1, v1⟩]
      ((SymTable_put a t k2 v2).2.buckets.getD (SymTable_hash k2 (bucketCount t.bucketIndex)) []) := by
    refine ⟨SymTable_get t k1, v2, ?_⟩
    rw [hlink, linkHead_bucket hwf, if_pos rfl]
    apply List.Sublist.cons₂
    apply List.singleton_sublist.mpr
    rw [← hhash]
    exact mem_of_chainHas _ _ ((contains_eq_one_iff t k1).mp hc1)
  obtain ⟨w1, w2, hsub⟩ := run_keeps_order hwf1 k1 k2 _ rest hop (by rw [hidx, hstep]) hinit
  have hkeys : List.Sublist [k2, k1] ((visits (run t (.put a k2 v2 :: rest)) x).map Prod.fst) := by
    rw [visits_keys hwfR, hrun]
    exact (hsub.trans (getD_sublist_flatten _ _)).map Node.key
  refine ⟨hkeys, fun hrev => ?_⟩
  have hnd : ((visits (run t (.put a k2 v2 :: rest)) x).map Prod.fst).Nodup := by
    rw [visits_keys hwfR]; exact hwfR.2.2.2.1
  exact pair_sublist_swap k2 k1 _ hnd hkeys hrev

/-- Witness for C10 as amended: in the table holding `[2, 125]`, the keys
`[1, 63]` and then `[1]` are put without growth; all three hash to bucket 1, and
`[1, 63]` is visited before `[2, 125]`. -/
theorem traversal_order_witness :
    List.Sublist [[1, 63], [2, 125]]
        ((visits (run (SymTable_put Alloc.ok SymTable_new [2, 125] 1).2
          [.put Alloc.ok [1, 63] 2, .put Alloc.ok [1] 3]) 5).map Prod.fst) ∧
    ¬ List.Sublist [[2, 125], [1, 63]]
        ((visits (run (SymTable_put Alloc.ok SymTable_new [2, 125] 1).2
          [.put Alloc.ok [1, 63] 2, .put Alloc.ok [1] 3]) 5).map Prod.fst) :=
  (traversal_order (SymTable_put Alloc.ok SymTable_new [2, 125] 1).2 5
      (put_wf Alloc.ok wf_new [2, 125] 1)).2.1
    [2, 125] [1, 63] Alloc.ok 2 [.put Alloc.ok [1] 3]
    (by decide) (by decide) (by decide) (by decide) (by decide)

theorem fillOps_getElem (n i : Nat) (h : i < n) :
    (fillOps n)[i]? = some (.put Alloc.ok (fillKey i) (i + 1)) := by
  unfold fillOps
  rw [List.getElem?_map, List.getElem?_range h]
  rfl

/-- Counterexample to C10 as stated: the table after the 510 puts of `fillOps 510`
(no other call is made) is reachable and has grown once.  The key `fillKey 27` was
put before the key `fillKey 428`, both are present and hash to the same bucket of
the table, and yet `fillKey 27` is visited before `fillKey 428`. -/
theorem traversal_order_counterexample :
    Reachable (filled 510) ∧
    (∀ op ∈ fillOps 510, ∃ i, op = .put Alloc.ok (fillKey i) (i + 1)) ∧
    (fillOps 510)[27]? = some (.put Alloc.ok (fillKey 27) 28) ∧
    (fillOps 510)[428]? = some (.put Alloc.ok (fillKey 428) 429) ∧
    SymTable_contains (filled 510) (fillKey 27) = 1 ∧
    SymTable_contains (filled 510) (fillKey 428) = 1 ∧
    SymTable_hash (fillKey 27) (bucketCount (filled 510).bucketIndex)
      = SymTable_hash (fillKey 428) (bucketCount (filled 510).bucketIndex) ∧
    List.Sublist [(fillKey 27, 28, 0), (fillKey 428, 429, 0)] (visits (filled 510) 0) ∧
    ¬ List.Sublist [(fillKey 428, 429, 0), (fillKey 27, 28, 0)] (visits (filled 510) 0) := by
  obtain ⟨hwf, hlen, hidx, hmem⟩ := filled_spec 509 (Nat.le_refl _)
  have hi : (filled 509).bucketIndex + 1 < numBucketCounts := by rw [hidx]; decide
  -- the two nodes before the growth: bucket 0 and bucket 247 of the old array
  have hb1 : (⟨fillKey 27, 28⟩ : Node) ∈ (filled 509).buckets.getD 247 [] := by
    have := wf_mem_bucket hwf ⟨fillKey 27, 28⟩ ((hmem _).mpr ⟨27, by decide, rfl⟩)
    rw [hidx] at this
    exact this
  have hb2 : (⟨fillKey 428, 429⟩ : Node) ∈ (filled 509).buckets.getD 0 [] := by
    have := wf_mem_bucket hwf ⟨fillKey 428, 429⟩ ((hmem _).mpr ⟨428, by decide, rfl⟩)
    rw [hidx] at this
    exact this
  have hsubS : List.Sublist [(⟨fillKey 428, 429⟩ : Node), ⟨fillKey 27, 28⟩]
      (entries (filled 509)) :=
    pair_sublist_flatten _ 0 247 (by decide) _ _ hb2 hb1
  -- the growth puts both in bucket 985 of the new array, in reverse order
  have hsubG : List.Sublist [(⟨fillKey 27, 28⟩ : Node), ⟨fillKey 428, 429⟩]
      ((expand true (filled 509)).buckets.getD 985 []) := by
    rw [expand_bucket hwf hi, hidx]
    have := (hsubS.filter (inBucket (bucketCount (0 + 1)) 985)).reverse
    rw [List.filter_cons_of_pos (by decide), List.filter_cons_of_pos (by decide),
      List.filter_nil] at this
    exact this
  -- the last put
  have hcap : (filled 509).length = bucketCount (filled 509).bucketIndex := by
    rw [hlen, hidx]; rfl
  have hgrow : grown Alloc.ok (filled 509) = expand true (filled 509) := by
    unfold grown
    rw [if_pos hcap]; rfl
  have habs : SymTable_contains (filled 509) (fillKey 509) = 0 := by
    rw [wf_contains_zero_iff hwf]
    intro hin
    obtain ⟨e, he, hk⟩ := List.mem_map.mp hin
    obtain ⟨i, hi', rfl⟩ := (hmem e).mp he
    have := fillKey_inj _ _ hk
    omega
  have hT : filled 510 = linkHead (expand true (filled 509)) (fillKey 509) 510 := by
    rw [filled_succ 509, put_absent Alloc.ok hwf (fillKey 509) 510 habs rfl rfl, hgrow]
  have hwfG : WF (expand true (filled 509)) := expand_grow_wf hwf hi
  have hwfT : WF (filled 510) := reachable_wf (filled_reachable 510)
  have hidxT : (filled 510).bucketIndex = 1 := by
    rw [hT, linkHead_bucketIndex, expand_grow_bucketIndex _ hi, hidx]
  have hsubT : List.Sublist [(⟨fillKey 27, 28⟩ : Node), ⟨fillKey 428, 429⟩]
      (entries (filled 510)) := by
    refine List.Sublist.trans ?_ (getD_sublist_flatten (filled 510).buckets 985)
    rw [hT, linkHead_bucket hwfG]
    split
    · exact hsubG.trans (List.sublist_cons_self _ _)
    · exact hsubG
  have hvis : List.Sublist [(fillKey 27, 28, 0), (fillKey 428, 429, 0)] (visits (filled 510) 0) := by
    rw [visits_eq hwfT]
    exact hsubT.map (fun e => (e.key, e.value, 0))
  have hnd : (visits (filled 510) 0).Nodup := by
    apply List.Nodup.of_map Prod.fst
    rw [visits_keys hwfT]
    exact hwfT.2.2.2.1
  refine ⟨filled_reachable 510, ?_, fillOps_getElem 510 27 (by decide),
    fillOps_getElem 510 428 (by decide), ?_, ?_, ?_, hvis,
    fun hrev => pair_sublist_swap _ _ _ hnd hvis hrev⟩
  · intro op hop
    obtain ⟨i, _, rfl⟩ := List.mem_map.mp hop
    exact ⟨i, rfl⟩
  · rw [wf_contains_iff hwfT]
    exact List.mem_map.mpr ⟨_, hsubT.subset (List.mem_cons_self _ _), rfl⟩
  · rw [wf_contains_iff hwfT]
    exact List.mem_map.mpr
      ⟨_, hsubT.subset (List.mem_cons_of_mem _ (List.mem_cons_self _ _)), rfl⟩
  · rw [hidxT]
    decide

/-! ## The two implementations -/

theorem containsLoop_eq (k : Key) (c : Chain) :
    SymTableList.containsLoop k c = if chainHas k c then 1 else 0 := by
  induction c with
  | nil => rfl
  | cons e c ih =>
    show (if e.key = k then 1 else SymTableList.containsLoop k c)
      = if (if k = e.key then true else chainHas k c) = true then 1 else 0
    by_cases h : e.key = k
    · have h' : (if k = e.key then true else chainHas k c) = true := if_pos h.symm
      rw [if_pos h, h', if_pos rfl]
    · have h' : (if k = e.key then true else chainHas k c) = chainHas k c :=
        if_neg (fun hk => h hk.symm)
      rw [if_neg h, h', ih]

theorem getLoop_eq (k : Key) (c : Chain) : SymTableList.getLoop k c = chainGet k c := by
  induction c with
  | nil => rfl
  | cons e c ih => simp only [SymTableList.getLoop, chainGet, ih]

theorem replaceLoop_eq (k : Key) (v : Value) (c : Chain) :
    SymTableList.replaceLoop k v c = chainReplace k v c := by
  induction c with
  | nil => rfl
  | cons e c ih =>
    simp only [SymTableList.replaceLoop, chainReplace, ih]

theorem removeLoop_eq (k : Key) (c : Chain) : SymTableList.removeLoop k c = chainUnlink k c := by
  induction c with
  | nil => rfl
  | cons e c ih =>
    simp only [SymTableList.removeLoop, chainUnlink, ih]

theorem chainHas_perm (k : Key) {c1 c2 : Chain} (h : List.Perm c1 c2) :
    chainHas k c1 = chainHas k c2 := by
  rw [Bool.eq_iff_iff, chainHas_iff, chainHas_iff]
  exact (h.map Node.key).mem_iff

theorem chainGet_perm (k : Key) {c1 c2 : Chain} (h : List.Perm c1 c2)
    (hnd : (c2.map Node.key).Nodup) : chainGet k c1 = chainGet k c2 := by
  cases hc : chainHas k c1
  · rw [chainGet_of_not_has k c1 hc, chainGet_of_not_has k c2 (by rw [← chainHas_perm k h, hc])]
  · have hmem := h.mem_iff.mp (mem_of_chainHas k c1 hc)
    exact (chainGet_of_mem c2 hnd _ hmem).symm

/-- On a well-formed table a lookup is the chain search over all nodes. -/
theorem wf_contains_entries {t : SymTable} (h : WF t) (k : Key) :
    SymTable_contains t k = if chainHas k (entries t) then 1 else 0 := by
  cases hc : chainHas k (entries t)
  · have : k ∉ keys t := (chainHas_false_iff k _).mp hc
    rw [(wf_contains_zero_iff h k).mpr this]; rfl
  · have : k ∈ keys t := (chainHas_iff k _).mp hc
    rw [(wf_contains_iff h k).mpr this]; rfl

theorem wf_get_entries {t : SymTable} (h : WF t) (k : Key) :
    SymTable_get t k = chainGet k (entries t) := by
  rcases contains_eq_zero_or_one t k with hc | hc
  · rw [get_of_contains_zero t k hc, chainGet_of_not_has]
    exact (chainHas_false_iff k _).mpr ((wf_contains_zero_iff h k).mp hc)
  · exact (chainGet_of_mem (entries t) h.2.2.2.1 _ (mem_of_contains k hc)).symm

theorem sim_nodup {h : SymTable} {l : SymTableList.SymTable} (hs : Sim h l) :
    (l.first.map Node.key).Nodup :=
  (List.Perm.nodup_iff (hs.2.1.map Node.key)).mp hs.1.2.2.2.1

theorem sim_contains {h : SymTable} {l : SymTableList.SymTable} (hs : Sim h l) (k : Key) :
    SymTableList.SymTable_contains l k = SymTable_contains h k := by
  unfold SymTableList.SymTable_contains
  rw [containsLoop_eq, wf_contains_entries hs.1, chainHas_perm k hs.2.1]

theorem sim_get {h : SymTable} {l : SymTableList.SymTable} (hs : Sim h l) (k : Key) :
    SymTableList.SymTable_get l k = SymTable_get h k := by
  unfold SymTableList.SymTable_get
  rw [getLoop_eq, wf_get_entries hs.1, chainGet_perm k hs.2.1 (sim_nodup hs)]

theorem sim_chainHas {h : SymTable} {l : SymTableList.SymTable} (hs : Sim h l) (k : Key) :
    chainHas k l.first = true ↔ SymTable_contains h k = 1 := by
  rw [wf_contains_iff hs.1, chainHas_iff]
  exact (hs.2.1.map Node.key).mem_iff.symm

theorem grown_entries_perm (a : Alloc) {t : SymTable} (h : WF t) :
    List.Perm (entries (grown a t)) (entries t) := by
  rcases grown_cases a t with hg | ⟨_, _, hi, hg⟩
  · rw [hg]
  · rw [hg]; exact expand_entries_perm h hi

theorem put_alloc_fail (a : Alloc) (t : SymTable) (k : Key) (v : Value)
    (h : a.node = false ∨ a.keyCopy = false) : SymTable_put a t k v = (0, grown a t) := by
  rw [put_unfold]
  split
  · rfl
  · rcases h with h | h
    · simp [h]
    · cases a.node <;> simp [h]

theorem sim_new : Sim SymTable_new SymTableList.SymTable_new := by
  refine ⟨wf_new, ?_, rfl⟩
  rw [entries_new]
  exact List.Perm.refl _

theorem sim_put {h : SymTable} {l : SymTableList.SymTable} (hs : Sim h l) (a : Alloc) (k : Key)
    (v : Value) :
    (SymTable_put a h k v).1 = (SymTableList.SymTable_put a l k v).1 ∧
      Sim (SymTable_put a h k v).2 (SymTableList.SymTable_put a l k v).2 := by
  have hsg : Sim (grown a h) l :=
    ⟨grown_wf a hs.1, (grown_entries_perm a hs.1).trans hs.2.1, (grown_length a h).trans hs.2.2⟩
  have hcl := sim_contains hs k
  rcases contains_eq_zero_or_one h k with hc | hc
  · cases hkc : a.keyCopy
    · rw [put_alloc_fail a h k v (Or.inr hkc)]
      simp only [SymTableList.SymTable_put, hcl, hc, hkc]
      exact ⟨rfl, hsg⟩
    · cases hn : a.node
      · rw [put_alloc_fail a h k v (Or.inl hn)]
        simp only [SymTableList.SymTable_put, hcl, hc, hkc, hn]
        exact ⟨rfl, hsg⟩
      · rw [put_absent a hs.1 k v hc hn hkc]
        simp only [SymTableList.SymTable_put, hcl, hc, hkc, hn]
        refine ⟨rfl, ?_, ?_, ?_⟩
        · have := put_wf a hs.1 k v
          rwa [put_absent a hs.1 k v hc hn hkc] at this
        · exact (linkHead_perm hsg.1 k v).trans (List.Perm.cons _ hsg.2.1)
        · show (grown a h).length + 1 = l.length + 1
          rw [hsg.2.2]
  · rw [put_present a hs.1 k v hc]
    simp only [SymTableList.SymTable_put, hcl, hc]
    exact ⟨rfl, hsg⟩

theorem sim_replace {h : SymTable} {l : SymTableList.SymTable} (hs : Sim h l) (k : Key)
    (v : Value) :
    (SymTable_replace h k v).1 = (SymTableList.SymTable_replace l k v).1 ∧
      Sim (SymTable_replace h k v).2 (SymTableList.SymTable_replace l k v).2 := by
  rcases contains_eq_zero_or_one h k with hc | hc
  · have hl : chainHas k l.first = false := by
      cases hh : chainHas k l.first
      · rfl
      · rw [(sim_chainHas hs k).mp hh] at hc
        exact absurd hc Int.one_ne_zero
    rw [replace_absent h k v hc]
    simp only [SymTableList.SymTable_replace, replaceLoop_eq, chainReplace_none k v _ hl]
    exact ⟨trivial, hs⟩
  · have hl : chainHas k l.first = true := (sim_chainHas hs k).mpr hc
    have hent := replace_present_entries hs.1 k v hc
    have hwf := replace_wf hs.1 k v
    have hlen := replace_length h k v
    rw [replace_present hs.1 k v hc] at hent hwf hlen ⊢
    simp only [SymTableList.SymTable_replace, replaceLoop_eq,
      chainReplace_some k v _ (sim_nodup hs) hl]
    refine ⟨?_, hwf, ?_, ?_⟩
    · rw [wf_get_entries hs.1, chainGet_perm k hs.2.1 (sim_nodup hs)]
    · rw [hent]; exact hs.2.1.map _
    · exact hlen.trans hs.2.2

theorem list_remove_absent (l : SymTableList.SymTable) (k : Key)
    (hl : chainHas k l.first = false) : SymTableList.SymTable_remove l k = some (NULL, l) := by
  simp only [SymTableList.SymTable_remove, removeLoop_eq, chainUnlink_none k _ hl]

/-- On the list table a remove of a present key runs `freeBoth` and has no defined outcome. -/
theorem list_remove_present (l : SymTableList.SymTable) (k : Key)
    (hnd : (l.first.map Node.key).Nodup) (hl : chainHas k l.first = true) :
    SymTableList.SymTable_remove l k = none := by
  simp only [SymTableList.SymTable_remove, removeLoop_eq, chainUnlink_some k _ hnd hl,
    SymTableList.freeBoth]

theorem sim_remove {h : SymTable} {l : SymTableList.SymTable} (hs : Sim h l) (k : Key) :
    (SymTable_contains h k = 0 →
      SymTable_remove h k = (NULL, h) ∧ SymTableList.SymTable_remove l k = some (NULL, l)) ∧
    (SymTable_contains h k = 1 → SymTableList.SymTable_remove l k = none) := by
  constructor
  · intro hc
    have hl : chainHas k l.first = false := by
      cases hh : chainHas k l.first
      · rfl
      · rw [(sim_chainHas hs k).mp hh] at hc
        exact absurd hc Int.one_ne_zero
    exact ⟨remove_absent h k hc, list_remove_absent l k hl⟩
  · intro hc
    exact list_remove_present l k (sim_nodup hs) ((sim_chainHas hs k).mpr hc)

theorem sim_stepCall {h : SymTable} {l : SymTableList.SymTable} (hs : Sim h l) (c : Call)
    (r : Res) (l' : SymTableList.SymTable)
    (hr : SymTableList.result l c = some r) (hl : SymTableList.stepCall l c = some l') :
    result h c = r ∧ Sim (stepCall h c) l' := by
  cases c with
  | getLength =>
    have h1 : r = .size l.length := (Option.some.inj hr).symm
    have h2 : l' = l := (Option.some.inj hl).symm
    rw [h1, h2]
    exact ⟨congrArg Res.size hs.2.2, hs⟩
  | op o =>
    cases o with
    | put a k v =>
      have h1 : r = .int (SymTableList.SymTable_put a l k v).1 := (Option.some.inj hr).symm
      have h2 : l' = (SymTableList.SymTable_put a l k v).2 := (Option.some.inj hl).symm
      rw [h1, h2]
      exact ⟨congrArg Res.int (sim_put hs a k v).1, (sim_put hs a k v).2⟩
    | replace k v =>
      have h1 : r = .ptr (SymTableList.SymTable_replace l k v).1 := (Option.some.inj hr).symm
      have h2 : l' = (SymTableList.SymTable_replace l k v).2 := (Option.some.inj hl).symm
      rw [h1, h2]
      exact ⟨congrArg Res.ptr (sim_replace hs k v).1, (sim_replace hs k v).2⟩
    | contains k =>
      have h1 : r = .int (SymTableList.SymTable_contains l k) := (Option.some.inj hr).symm
      have h2 : l' = l := (Option.some.inj hl).symm
      rw [h1, h2]
      exact ⟨congrArg Res.int (sim_contains hs k).symm, hs⟩
    | get k =>
      have h1 : r = .ptr (SymTableList.SymTable_get l k) := (Option.some.inj hr).symm
      have h2 : l' = l := (Option.some.inj hl).symm
      rw [h1, h2]
      exact ⟨congrArg Res.ptr (sim_get hs k).symm, hs⟩
    | map x =>
      have h1 : r = .void := (Option.some.inj hr).symm
      have h2 : l' = l := (Option.some.inj hl).symm
      rw [h1, h2]
      exact ⟨rfl, hs⟩
    | remove k =>
      have hr' : (SymTableList.SymTable_remove l k).map (fun p => Res.ptr p.1) = some r := hr
      have hl' : (SymTableList.SymTable_remove l k).map Prod.snd = some l' := hl
      rcases contains_eq_zero_or_one h k with hc | hc
      · obtain ⟨hh, hlist⟩ := (sim_remove hs k).1 hc
        rw [hlist] at hr' hl'
        have h1 : r = .ptr NULL := (Option.some.inj hr').symm
        have h2 : l' = l := (Option.some.inj hl').symm
        rw [h1, h2]
        show Res.ptr (SymTable_remove h k).1 = _ ∧ Sim (SymTable_remove h k).2 l
        rw [hh]
        exact ⟨rfl, hs⟩
      · rw [(sim_remove hs k).2 hc] at hr'
        exact absurd hr' (by simp)

theorem sim_results {h : SymTable} {l : SymTableList.SymTable} (hs : Sim h l) (cs : List Call)
    (rs : List Res) (hrs : SymTableList.results l cs = some rs) :
    results h cs = rs ∧
      ∃ l', SymTableList.runCalls l cs = some l' ∧ Sim (runCalls h cs) l' := by
  induction cs generalizing h l rs with
  | nil =>
    have : rs = [] := (Option.some.inj hrs).symm
    rw [this]
    exact ⟨rfl, l, rfl, hs⟩
  | cons c cs ih =>
    cases hr : SymTableList.result l c with
    | none => simp [SymTableList.results, hr] at hrs
    | some r =>
      cases hl : SymTableList.stepCall l c with
      | none => simp [SymTableList.results, hr, hl] at hrs
      | some l1 =>
        have hrs' : (SymTableList.results l1 cs).map (fun rs => r :: rs) = some rs := by
          simpa [SymTableList.results, hr, hl] using hrs
        cases hrest : SymTableList.results l1 cs with
        | none => rw [hrest] at hrs'; exact absurd hrs' (by simp)
        | some rs1 =>
          rw [hrest] at hrs'
          have hrs1 : rs = r :: rs1 := (Option.some.inj hrs').symm
          have h1 := sim_stepCall hs c r l1 hr hl
          obtain ⟨h2, l', hrun, hsim⟩ := ih h1.2 rs1 hrest
          refine ⟨?_, l', ?_, hsim⟩
          · show result h c :: results (stepCall h c) cs = rs
            rw [h1.1, h2, hrs1]
          · show (match SymTableList.stepCall l c with
              | some t' => SymTableList.runCalls t' cs
              | none => none) = some l'
            rw [hl]
            exact hrun

theorem list_visits_eq (l : SymTableList.SymTable) (x : Value) :
    SymTableList.visits l x = l.first.map (fun e => (e.key, e.value, x)) :=
  (foldl_record (fun e => (e.key, e.value, x)) l.first []).trans (List.nil_append _)

/-- Where every call on the linked list has a defined outcome, the two
implementations return the same results and `SymTable_map` visits the same
multiset of triples in both. -/
theorem interchangeable_where_defined (cs : List Call) (x : Value) (rs : List Res)
    (hrs : SymTableList.results SymTableList.SymTable_new cs = some rs) :
    results SymTable_new cs = rs ∧
    ∃ l', SymTableList.runCalls SymTableList.SymTable_new cs = some l' ∧
      ((visits (runCalls SymTable_new cs) x : List (Key × Value × Value)) :
          Multiset (Key × Value × Value))
        = (SymTableList.visits l' x : List (Key × Value × Value)) := by
  obtain ⟨h1, l', hrun, hsim⟩ := sim_results sim_new cs rs hrs
  refine ⟨h1, l', hrun, ?_⟩
  rw [visits_eq hsim.1, list_visits_eq]
  exact Multiset.coe_eq_coe.mpr (hsim.2.1.map _)

/-- C11: the failing input.  After `put("a", 1)` on a fresh table,
`remove("a")` returns 1 on the hash table, while on the linked list the call
reaches `freeBoth` and has no defined outcome; so the sequence `put("a", 1)`,
`remove("a")` has results on the hash table and none on the linked list. -/
theorem list_remove_undefined :
    (SymTable_remove (SymTable_put Alloc.ok SymTable_new [97] 1).2 [97]).1 = 1 ∧
    SymTableList.SymTable_remove
      (SymTableList.SymTable_put Alloc.ok SymTableList.SymTable_new [97] 1).2 [97] = none ∧
    results SymTable_new [.op (.put Alloc.ok [97] 1), .op (.remove [97])] = [.int 1, .ptr 1] ∧
    SymTableList.results SymTableList.SymTable_new
      [.op (.put Alloc.ok [97] 1), .op (.remove [97])] = none := by
  refine ⟨by decide, by decide, by decide, by decide⟩

/-! ## Lookups and the history of calls -/

theorem contains_congr_of_keys {t t' : SymTable} (h : WF t) (h' : WF t') (k : Key)
    (hk : k ∈ keys t' ↔ k ∈ keys t) : SymTable_contains t' k = SymTable_contains t k := by
  rcases contains_eq_zero_or_one t k with hc | hc
  · rw [hc, wf_contains_zero_iff h', hk, ← wf_contains_zero_iff h]; exact hc
  · rw [hc, wf_contains_iff h', hk, ← wf_contains_iff h]; exact hc

theorem replace_keys {t : SymTable} (h : WF t) (k : Key) (v : Value) :
    keys (SymTable_replace t k v).2 = keys t := by
  rcases contains_eq_zero_or_one t k with hc | hc
  · rw [replace_absent t k v hc]
  · unfold keys
    rw [replace_present_entries h k v hc, map_setValue_keys]

theorem replace_contains_self {t : SymTable} (h : WF t) (k k' : Key) (v : Value) :
    SymTable_contains (SymTable_replace t k v).2 k' = SymTable_contains t k' :=
  contains_congr_of_keys h (replace_wf h k v) k' (by rw [replace_keys h k v])

theorem put_one_lookup (a : Alloc) {t : SymTable} (h : WF t) (k : Key) (v : Value)
    (h1 : (SymTable_put a t k v).1 = 1) :
    SymTable_contains (SymTable_put a t k v).2 k = 1 ∧ SymTable_get (SymTable_put a t k v).2 k = v := by
  rcases put_result a t k v with hp | ⟨hc, hp⟩
  · rw [hp] at h1
    exact absurd h1 Int.zero_ne_one
  · have hg := grown_wf a h
    have hk := (wf_contains_zero_iff hg k).mp hc
    rw [hp]
    refine ⟨?_, linkHead_get_self hg k v hk⟩
    rw [wf_contains_iff (linkHead_wf hg k v hk)]
    exact List.mem_map.mpr ⟨⟨k, v⟩, (linkHead_mem hg k v _).mpr (Or.inl rfl), rfl⟩

theorem put_fst_zero_or_one (a : Alloc) (t : SymTable) (k : Key) (v : Value) :
    (SymTable_put a t k v).1 = 0 ∨ (SymTable_put a t k v).1 = 1 := by
  rcases put_result a t k v with hp | ⟨_, hp⟩
  · rw [hp]; exact Or.inl rfl
  · rw [hp]; exact Or.inr rfl

theorem put_zero_lookup (a : Alloc) {t : SymTable} (h : WF t) (k : Key) (v : Value)
    (h0 : (SymTable_put a t k v).1 = 0) (k' : Key) :
    SymTable_get (SymTable_put a t k v).2 k' = SymTable_get t k' ∧
      SymTable_contains (SymTable_put a t k v).2 k' = SymTable_contains t k' := by
  rw [put_zero_table a t k v h0]
  exact grown_lookup a h k'

/-- One call keeps the history binding of `k` in agreement with the lookups of `k`. -/
theorem bindAfter_agrees {t : SymTable} (h : WF t) (k : Key) (cur : Option Value) (op : Op)
    (hc : SymTable_contains t k = 1 ↔ cur.isSome = true)
    (hg : ∀ v, cur = some v → SymTable_get t k = v) :
    (SymTable_contains (step t op) k = 1 ↔ (bindAfter k t cur op).isSome = true) ∧
      ∀ v, bindAfter k t cur op = some v → SymTable_get (step t op) k = v := by
  cases op with
  | contains k' => exact ⟨hc, hg⟩
  | get k' => exact ⟨hc, hg⟩
  | map x => exact ⟨hc, hg⟩
  | put a k' v =>
    show (SymTable_contains (SymTable_put a t k' v).2 k = 1 ↔ _) ∧
      ∀ w, _ → SymTable_get (SymTable_put a t k' v).2 k = w
    by_cases hk : k' = k
    · subst hk
      rcases put_fst_zero_or_one a t k' v with h0 | h1
      · have hl := put_zero_lookup a h k' v h0 k'
        have hb : bindAfter k' t cur (.put a k' v) = cur := by
          show (if k' = k' ∧ (SymTable_put a t k' v).1 = 1 then some v else cur) = cur
          rw [if_neg]
          rintro ⟨_, h1⟩
          rw [h0] at h1
          exact absurd h1 Int.zero_ne_one
        rw [hb, hl.1, hl.2]
        exact ⟨hc, hg⟩
      · have hl := put_one_lookup a h k' v h1
        have hb : bindAfter k' t cur (.put a k' v) = some v := by
          show (if k' = k' ∧ (SymTable_put a t k' v).1 = 1 then some v else cur) = some v
          rw [if_pos ⟨rfl, h1⟩]
        rw [hb, hl.1, hl.2]
        refine ⟨⟨fun _ => rfl, fun _ => rfl⟩, ?_⟩
        intro w hw
        exact Option.some.inj hw
    · have hl := put_lookup_other a h k' v k (fun e => hk e.symm)
      have hb : bindAfter k t cur (.put a k' v) = cur := by
        show (if k' = k ∧ (SymTable_put a t k' v).1 = 1 then some v else cur) = cur
        rw [if_neg (fun hh => hk hh.1)]
      rw [hb, hl.1, hl.2]
      exact ⟨hc, hg⟩
  | replace k' v =>
    show (SymTable_contains (SymTable_replace t k' v).2 k = 1 ↔ _) ∧
      ∀ w, _ → SymTable_get (SymTable_replace t k' v).2 k = w
    by_cases hk : k' = k
    · subst hk
      have hb : bindAfter k' t cur (.replace k' v) = cur.map (fun _ => v) := by
        show (if k' = k' then cur.map (fun _ => v) else cur) = _
        rw [if_pos rfl]
      rw [hb, replace_contains_self h k' k' v, Option.isSome_map']
      refine ⟨hc, ?_⟩
      intro w hw
      cases hcur : cur with
      | none => rw [hcur] at hw; exact absurd hw (by simp)
      | some u =>
        rw [hcur] at hw
        have hw' : v = w := Option.some.inj hw
        have hpres : SymTable_contains t k' = 1 := hc.mpr (by rw [hcur]; rfl)
        rw [← hw']
        exact replace_get_self h k' v hpres
    · have hl := replace_lookup_other h k' v k (fun e => hk e.symm)
      have hb : bindAfter k t cur (.replace k' v) = cur := by
        show (if k' = k then cur.map (fun _ => v) else cur) = cur
        rw [if_neg hk]
      rw [hb, hl.1, hl.2]
      exact ⟨hc, hg⟩
  | remove k' =>
    show (SymTable_contains (SymTable_remove t k').2 k = 1 ↔ _) ∧
      ∀ w, _ → SymTable_get (SymTable_remove t k').2 k = w
    by_cases hk : k' = k
    · subst hk
      rcases contains_eq_zero_or_one t k' with h0 | h1
      · have hb : bindAfter k' t cur (.remove k') = cur := by
          show (if k' = k' ∧ SymTable_contains t k' = 1 then none else cur) = cur
          rw [if_neg]
          rintro ⟨_, h1⟩
          rw [h0] at h1
          exact absurd h1 Int.zero_ne_one
        rw [hb, remove_absent t k' h0]
        exact ⟨hc, hg⟩
      · have hb : bindAfter k' t cur (.remove k') = none := by
          show (if k' = k' ∧ SymTable_contains t k' = 1 then none else cur) = none
          rw [if_pos ⟨rfl, h1⟩]
        rw [hb, remove_contains_self h k']
        refine ⟨⟨fun hh => absurd hh Int.zero_ne_one, fun hh => absurd hh (by simp)⟩, ?_⟩
        intro w hw
        exact absurd hw (by simp)
    · have hl := remove_lookup_other h k' k (fun e => hk e.symm)
      have hb : bindAfter k t cur (.remove k') = cur := by
        show (if k' = k ∧ SymTable_contains t k' = 1 then none else cur) = cur
        rw [if_neg (fun hh => hk hh.1)]
      rw [hb, hl.1, hl.2]
      exact ⟨hc, hg⟩

theorem tracked_agrees {t : SymTable} (h : WF t) (k : Key) (ops : List Op) (cur : Option Value)
    (hc : SymTable_contains t k = 1 ↔ cur.isSome = true)
    (hg : ∀ v, cur = some v → SymTable_get t k = v) :
    (SymTable_contains (run t ops) k = 1 ↔ (tracked k t ops cur).isSome = true) ∧
      ∀ v, tracked k t ops cur = some v → SymTable_get (run t ops) k = v := by
  induction ops generalizing t cur with
  | nil => exact ⟨hc, hg⟩
  | cons op ops ih =>
    have hb := bindAfter_agrees h k cur op hc hg
    exact ih (step_wf h op) (bindAfter k t cur op) hb.1 hb.2

/-- C12: on every table reachable from `SymTable_new`, `SymTable_contains` of a key
returns 1 exactly when the history binds the key (some earlier put of the key
returned 1 and no later remove of the key has unlinked it), `SymTable_get` then
returns the bound value (that of the put, or of the latest replace of the key
after it), `SymTable_get` returns `NULL` when `SymTable_contains` returns 0, and
the table after `SymTable_contains` or `SymTable_get` is the table before. -/
theorem lookups_agree_with_history (ops : List Op) (k : Key) :
    (SymTable_contains (run SymTable_new ops) k = 1 ↔
      (tracked k SymTable_new ops none).isSome = true) ∧
    (∀ v, tracked k SymTable_new ops none = some v → SymTable_get (run SymTable_new ops) k = v) ∧
    (SymTable_contains (run SymTable_new ops) k = 0 → SymTable_get (run SymTable_new ops) k = NULL) ∧
    (∀ k', step (run SymTable_new ops) (.contains k') = run SymTable_new ops) ∧
    (∀ k', step (run SymTable_new ops) (.get k') = run SymTable_new ops) := by
  have h := tracked_agrees wf_new k ops none
    ⟨fun hc => absurd ((contains_new k).symm.trans hc) Int.zero_ne_one, fun hh => absurd hh (by simp)⟩
    (fun v hv => absurd hv (by simp))
  exact ⟨h.1, h.2, get_of_contains_zero _ k, fun _ => rfl, fun _ => rfl⟩

/-- Witness for C12: after `put("a",1); replace("a",9); put("b",2); remove("b")`
the history binds "a" to 9 and does not bind "b". -/
theorem lookups_agree_with_history_witness :
    tracked [97] SymTable_new
      [.put Alloc.ok [97] 1, .replace [97] 9, .put Alloc.ok [98] 2, .remove [98]] none = some 9 ∧
    SymTable_get (run SymTable_new
      [.put Alloc.ok [97] 1, .replace [97] 9, .put Alloc.ok [98] 2, .remove [98]]) [97] = 9 ∧
    tracked [98] SymTable_new
      [.put Alloc.ok [97] 1, .replace [97] 9, .put Alloc.ok [98] 2, .remove [98]] none = none ∧
    ¬ SymTable_contains (run SymTable_new
      [.put Alloc.ok [97] 1, .replace [97] 9, .put Alloc.ok [98] 2, .remove [98]]) [98] = 1 := by
  have ha := lookups_agree_with_history
    [.put Alloc.ok [97] 1, .replace [97] 9, .put Alloc.ok [98] 2, .remove [98]] [97]
  have hb := lookups_agree_with_history
    [.put Alloc.ok [97] 1, .replace [97] 9, .put Alloc.ok [98] 2, .remove [98]] [98]
  have ta : tracked [97] SymTable_new
      [.put Alloc.ok [97] 1, .replace [97] 9, .put Alloc.ok [98] 2, .remove [98]] none = some 9 := by
    decide
  have tb : tracked [98] SymTable_new
      [.put Alloc.ok [97] 1, .replace [97] 9, .put Alloc.ok [98] 2, .remove [98]] none = none := by
    decide
  refine ⟨ta, ha.2.1 9 ta, tb, ?_⟩
  intro hc
  have := hb.1.mp hc
  rw [tb] at this
  exact absurd this (by simp)

/-- C13: the concrete scenario on a fresh table, with the values 1, 2, 3, 9 and
the keys "a" and "b". -/
theorem concrete_scenario :
    (SymTable_put Alloc.ok SymTable_new [97] 1).1 = 1 ∧
    (SymTable_put Alloc.ok (SymTable_put Alloc.ok SymTable_new [97] 1).2 [98] 2).1 = 1 ∧
    (SymTable_put Alloc.ok
      (SymTable_put Alloc.ok (SymTable_put Alloc.ok SymTable_new [97] 1).2 [98] 2).2 [97] 3).1 = 0 ∧
    SymTable_getLength scenarioPuts = 2 ∧
    SymTable_get scenarioPuts [98] = 2 ∧
    (SymTable_replace scenarioPuts [97] 9).1 = 1 ∧
    SymTable_get scenarioReplaced [97] = 9 ∧
    (SymTable_remove scenarioReplaced [98]).1 = 2 ∧
    SymTable_getLength scenarioRemoved = 1 ∧
    (SymTable_remove scenarioRemoved [98]).1 = NULL := by
  refine ⟨by decide, by decide, by decide, by decide, by decide, by decide, by decide, by decide,
    by decide, by decide⟩

/-! ## Capacity -/

theorem schedIndex_cases (n : Nat) :
    (n ≤ 509 ∧ schedIndex n = 0) ∨ ((509 < n ∧ n ≤ 1021) ∧ schedIndex n = 1) ∨
    ((1021 < n ∧ n ≤ 2039) ∧ schedIndex n = 2) ∨ ((2039 < n ∧ n ≤ 4093) ∧ schedIndex n = 3) ∨
    ((4093 < n ∧ n ≤ 8191) ∧ schedIndex n = 4) ∨ ((8191 < n ∧ n ≤ 16381) ∧ schedIndex n = 5) ∨
    ((16381 < n ∧ n ≤ 32749) ∧ schedIndex n = 6) ∨ (32749 < n ∧ schedIndex n = 7) := by
  unfold schedIndex
  split_ifs <;> omega

theorem schedIndex_succ (n : Nat) :
    schedIndex (n + 1) =
      if n = bucketCount (schedIndex n) ∧ schedIndex n + 1 < numBucketCounts then schedIndex n + 1
      else schedIndex n := by
  rcases schedIndex_cases n with h | h | h | h | h | h | h | h <;>
    rcases schedIndex_cases (n + 1) with h' | h' | h' | h' | h' | h' | h' | h' <;>
    (rw [h'.2, h.2]
     simp only [bucketCount, bucketCounts, numBucketCounts_eq, List.getD_cons_succ,
       List.getD_cons_zero]
     split_ifs <;> omega)

theorem schedIndex_lt (n : Nat) : schedIndex n < numBucketCounts := by
  unfold schedIndex
  rw [numBucketCounts_eq]
  split_ifs <;> omega

/-- The table filled with `n` distinct keys, every allocation succeeding: it
holds exactly the keys put and has grown to the schedule index of `n`. -/
theorem filled_all (n : Nat) :
    WF (filled n) ∧ (filled n).length = n ∧ (filled n).bucketIndex = schedIndex n ∧
      ∀ e, e ∈ entries (filled n) ↔ ∃ i, i < n ∧ e = ⟨fillKey i, i + 1⟩ := by
  induction n with
  | zero =>
    refine ⟨wf_new, rfl, rfl, ?_⟩
    intro e
    show e ∈ entries SymTable_new ↔ _
    rw [entries_new]
    simp
  | succ n ih =>
    obtain ⟨hwf, hlen, hidx, hmem⟩ := ih
    have habs : SymTable_contains (filled n) (fillKey n) = 0 := by
      rw [wf_contains_zero_iff hwf]
      intro hin
      obtain ⟨e, he, hk⟩ := List.mem_map.mp hin
      obtain ⟨i, hi, rfl⟩ := (hmem e).mp he
      have := fillKey_inj _ _ hk
      omega
    have hgi : (grown Alloc.ok (filled n)).bucketIndex = schedIndex (n + 1) := by
      rw [schedIndex_succ]
      unfold grown
      by_cases hcap : n = bucketCount (schedIndex n)
      · rw [if_pos (by rw [hlen, hidx]; exact hcap)]
        by_cases hlast : schedIndex n + 1 < numBucketCounts
        · rw [if_pos ⟨hcap, hlast⟩]
          show (expand true (filled n)).bucketIndex = _
          rw [expand_grow_bucketIndex _ (by rw [hidx]; exact hlast), hidx]
        · rw [if_neg (fun hh => hlast hh.2), expand_of_last _ _ (by rw [hidx]; exact hlast), hidx]
      · rw [if_neg (by rw [hlen, hidx]; exact hcap), if_neg (fun hh => hcap hh.1), hidx]
    have hg := grown_wf Alloc.ok hwf
    have hput := put_absent Alloc.ok hwf (fillKey n) (n + 1) habs rfl rfl
    have hwf' : WF (filled (n + 1)) := by
      rw [filled_succ]; exact put_wf _ hwf _ _
    rw [filled_succ, hput]
    rw [filled_succ, hput] at hwf'
    refine ⟨hwf', ?_, ?_, ?_⟩
    · show (grown Alloc.ok (filled n)).length + 1 = n + 1
      rw [grown_length, hlen]
    · rw [linkHead_bucketIndex, hgi]
    · intro e
      rw [linkHead_mem hg, grown_mem Alloc.ok hwf, hmem]
      constructor
      · rintro (rfl | ⟨i, hi, rfl⟩)
        · exact ⟨n, by omega, rfl⟩
        · exact ⟨i, by omega, rfl⟩
      · rintro ⟨i, hi, rfl⟩
        by_cases hin : i = n
        · subst hin; exact Or.inl rfl
        · exact Or.inr ⟨i, by omega, rfl⟩

theorem filled_absent (n i : Nat) (hi : n ≤ i) : SymTable_contains (filled n) (fillKey i) = 0 := by
  obtain ⟨hwf, _, _, hmem⟩ := filled_all n
  rw [wf_contains_zero_iff hwf]
  intro hin
  obtain ⟨e, he, hk⟩ := List.mem_map.mp hin
  obtain ⟨j, hj, rfl⟩ := (hmem e).mp he
  have := fillKey_inj _ _ hk
  omega

theorem bucketCount_succ_le (i : Nat) (h : i + 1 < numBucketCounts) :
    bucketCount i + 1 ≤ bucketCount (i + 1) := by
  rw [numBucketCounts_eq] at h
  have hi : i < 7 := by omega
  interval_cases i <;> simp [bucketCount, bucketCounts]

theorem remove_length_le (t : SymTable) (k : Key) :
    (SymTable_remove t k).2.length ≤ t.length := by
  rw [remove_unfold]
  split
  · exact Nat.sub_le _ _
  · exact Nat.le_refl _

/-- A call whose growth allocation does not fail keeps the counter within the
scheduled capacity while the schedule is not exhausted. -/
theorem step_capacity (t : SymTable) (op : Op) (hop : growthAllocated op = true)
    (hcap : t.bucketIndex < 7 → t.length ≤ bucketCount t.bucketIndex)
    (hidx : (step t op).bucketIndex < 7) :
    (step t op).length ≤ bucketCount (step t op).bucketIndex := by
  cases op with
  | contains k => exact hcap hidx
  | get k => exact hcap hidx
  | map x => exact hcap hidx
  | replace k v =>
    have h1 : (step t (.replace k v)).bucketIndex = t.bucketIndex := replace_bucketIndex t k v
    have h2 : (step t (.replace k v)).length = t.length := replace_length t k v
    rw [h1] at hidx ⊢
    rw [h2]
    exact hcap hidx
  | remove k =>
    have h1 : (step t (.remove k)).bucketIndex = t.bucketIndex := remove_bucketIndex t k
    have h2 : (step t (.remove k)).length ≤ t.length := remove_length_le t k
    rw [h1] at hidx ⊢
    exact Nat.le_trans h2 (hcap hidx)
  | put a k v =>
    have hgrow : a.grow = true := hop
    have h1 : (step t (.put a k v)).bucketIndex = (grown a t).bucketIndex := put_bucketIndex a t k v
    have h2 : (step t (.put a k v)).length = t.length + (if (SymTable_put a t k v).1 = 1 then 1 else 0) :=
      put_length a t k v
    have h3 : (step t (.put a k v)).length ≤ t.length + 1 := by
      rw [h2]; split <;> omega
    rw [h1] at hidx ⊢
    by_cases hc : t.length = bucketCount t.bucketIndex
    · by_cases hlast : t.bucketIndex + 1 < numBucketCounts
      · have hg : grown a t = expand true t := by
          unfold grown
          rw [if_pos hc, hgrow]
        rw [hg, expand_grow_bucketIndex t hlast]
        have := bucketCount_succ_le t.bucketIndex hlast
        omega
      · have hg : grown a t = t := by
          unfold grown
          rw [if_pos hc, expand_of_last _ _ hlast]
        rw [hg] at hidx
        rw [numBucketCounts_eq] at hlast
        omega
    · have hg : grown a t = t := by
        unfold grown
        rw [if_neg hc]
      rw [hg] at hidx ⊢
      have := hcap hidx
      omega

/-- C14, as amended: in every state reachable from `SymTable_new` by calls whose
growth allocations all succeed, `length <= bucketCounts[bucketIndex]` holds (in
particular at entry to the next `SymTable_put`) as long as the schedule is not
exhausted, that is while `bucketIndex < 7`. -/
theorem capacity_invariant (ops : List Op) (hgrow : ∀ op ∈ ops, growthAllocated op = true)
    (hidx : (run SymTable_new ops).bucketIndex < 7) :
    (run SymTable_new ops).length ≤ bucketCount (run SymTable_new ops).bucketIndex := by
  have key : ∀ (ops : List Op) (t : SymTable), (∀ op ∈ ops, growthAllocated op = true) →
      (t.bucketIndex < 7 → t.length ≤ bucketCount t.bucketIndex) →
      (run t ops).bucketIndex < 7 → (run t ops).length ≤ bucketCount (run t ops).bucketIndex := by
    intro ops
    induction ops with
    | nil => intro t _ hcap hi; exact hcap hi
    | cons op ops ih =>
      intro t hg hcap hi
      exact ih (step t op) (fun o ho => hg o (List.mem_cons_of_mem _ ho))
        (step_capacity t op (hg op (List.mem_cons_self _ _)) hcap) hi
  exact key ops SymTable_new hgrow (fun _ => Nat.zero_le _) hidx

/-- Witness for C14 as amended: the table after three puts. -/
theorem capacity_invariant_witness :
    chainOfThree.length ≤ bucketCount chainOfThree.bucketIndex :=
  capacity_invariant
    [.put Alloc.ok [2, 125] 1, .put Alloc.ok [1, 63] 2, .put Alloc.ok [1] 3]
    (by decide) (by decide)

/-- Counterexample to C14 as stated: two reachable tables with
`length > bucketCounts[bucketIndex]`.  The first is reached by 65522 puts of
distinct keys with every allocation succeeding: the schedule is exhausted at
index 7 (capacity 65521).  The second is reached by 509 such puts and one more
put whose growth allocation fails: the table stays at index 0 (capacity 509)
with 510 nodes. -/
theorem capacity_exceeded :
    Reachable (filled 65522) ∧
    (∀ op ∈ fillOps 65522, ∃ i, op = .put Alloc.ok (fillKey i) (i + 1)) ∧
    (filled 65522).bucketIndex = 7 ∧
    (filled 65522).length = 65522 ∧
    bucketCount (filled 65522).bucketIndex = 65521 ∧
    ¬ (filled 65522).length ≤ bucketCount (filled 65522).bucketIndex ∧
    Reachable (SymTable_put Alloc.noGrow (filled 509) (fillKey 509) 510).2 ∧
    (SymTable_put Alloc.noGrow (filled 509) (fillKey 509) 510).2.bucketIndex = 0 ∧
    (SymTable_put Alloc.noGrow (filled 509) (fillKey 509) 510).2.length = 510 ∧
    ¬ (SymTable_put Alloc.noGrow (filled 509) (fillKey 509) 510).2.length
        ≤ bucketCount (SymTable_put Alloc.noGrow (filled 509) (fillKey 509) 510).2.bucketIndex := by
  obtain ⟨_, hlen, hidx, _⟩ := filled_all 65522
  have hidx7 : (filled 65522).bucketIndex = 7 := hidx.trans (by decide)
  obtain ⟨hwf9, hlen9, hidx9, _⟩ := filled_all 509
  have hidx0 : (filled 509).bucketIndex = 0 := hidx9.trans (by decide)
  have hg : grown Alloc.noGrow (filled 509) = filled 509 := by
    unfold grown
    split
    · exact expand_of_fail _
    · rfl
  have hput := put_absent Alloc.noGrow hwf9 (fillKey 509) 510 (filled_absent 509 509 (Nat.le_refl _))
    rfl rfl
  rw [hg] at hput
  have hl2 : (SymTable_put Alloc.noGrow (filled 509) (fillKey 509) 510).2.length = 510 := by
    rw [hput]
    show (filled 509).length + 1 = 510
    rw [hlen9]
  have hi2 : (SymTable_put Alloc.noGrow (filled 509) (fillKey 509) 510).2.bucketIndex = 0 := by
    rw [hput, linkHead_bucketIndex, hidx0]
  refine ⟨filled_reachable _, ?_, hidx7, hlen, by rw [hidx7]; rfl, ?_,
    reachable_step (filled_reachable 509) (.put Alloc.noGrow (fillKey 509) 510), hi2, hl2, ?_⟩
  · intro op hop
    obtain ⟨i, _, rfl⟩ := List.mem_map.mp hop
    exact ⟨i, rfl⟩
  · rw [hlen, hidx7]
    decide
  · rw [hl2, hi2]
    decide

/-! ## Placement and uniqueness of keys -/

theorem wf_placed {t : SymTable} (h : WF t) : Placed t := by
  intro i e he
  by_cases hi : i < t.buckets.length
  · exact (h.2.2.1 i hi e he).symm
  · rw [getD_of_length_le _ _ _ (Nat.le_of_not_lt hi)] at he
    simp at he

/-- C15: in every table reachable from `SymTable_new` every node stored in bucket
`i` satisfies `i = SymTable_hash(key, bucketCounts[bucketIndex])`, so a present
key occurs in the chain of exactly that one bucket; the property holds for
`SymTable_new` and still holds after any further call and after `expand`. -/
theorem bucket_placement (ops : List Op) :
    Placed SymTable_new ∧
    Placed (run SymTable_new ops) ∧
    (∀ k, SymTable_contains (run SymTable_new ops) k = 1 →
      ∀ i, k ∈ ((run SymTable_new ops).buckets.getD i []).map Node.key ↔
        i = SymTable_hash k (bucketCount (run SymTable_new ops).bucketIndex)) ∧
    (∀ a k v, Placed (SymTable_put a (run SymTable_new ops) k v).2) ∧
    (∀ k v, Placed (SymTable_replace (run SymTable_new ops) k v).2) ∧
    (∀ k, Placed (SymTable_remove (run SymTable_new ops) k).2) ∧
    (∀ c, Placed (expand c (run SymTable_new ops))) := by
  have hwf := run_wf wf_new ops
  refine ⟨wf_placed wf_new, wf_placed hwf, ?_, fun a k v => wf_placed (put_wf a hwf k v),
    fun k v => wf_placed (replace_wf hwf k v), fun k => wf_placed (remove_wf hwf k),
    fun c => wf_placed (expand_wf c hwf)⟩
  intro k hc i
  constructor
  · intro hin
    obtain ⟨e, he, rfl⟩ := List.mem_map.mp hin
    exact wf_placed hwf i e he
  · intro hi
    rw [hi]
    exact (chainHas_iff k _).mp ((contains_eq_one_iff _ k).mp hc)

/-- C16: in every table reachable from `SymTable_new` no two nodes of the bucket
array have equal keys, also after `expand`. -/
theorem key_uniqueness (ops : List Op) :
    (keys (run SymTable_new ops)).Nodup ∧
    List.Pairwise (fun a b => a.key ≠ b.key) (entries (run SymTable_new ops)) ∧
    (∀ c, (keys (expand c (run SymTable_new ops))).Nodup) := by
  have hwf := run_wf wf_new ops
  refine ⟨hwf.2.2.2.1, ?_, fun c => (expand_wf c hwf).2.2.2.1⟩
  have := hwf.2.2.2.1
  unfold keys at this
  exact List.pairwise_map.mp this

/-! ## The hash function -/

theorem specAccum_append (b c : List Nat) (i : Nat) (h : i ≤ b.length) :
    specAccum (b ++ c) i = specAccum b i := by
  induction i with
  | zero => rfl
  | succ i ih =>
    show (specAccum (b ++ c) i * 65599 + (b ++ c).getD i 0) % 2 ^ 64
      = (specAccum b i * 65599 + b.getD i 0) % 2 ^ 64
    rw [ih (by omega), List.getD_append _ _ _ _ (by omega)]

theorem foldl_eq_specAccum (b : List Nat) :
    b.foldl (fun h x => (h * 65599 + x) % 2 ^ 64) 0 = specAccum b b.length := by
  induction b using List.reverseRecOn with
  | nil => rfl
  | append_singleton b x ih =>
    rw [List.foldl_append, ih, List.length_append]
    show (specAccum b b.length * 65599 + x) % 2 ^ 64
      = (specAccum (b ++ [x]) b.length * 65599 + (b ++ [x]).getD b.length 0) % 2 ^ 64
    rw [specAccum_append b [x] _ (Nat.le_refl _), List.getD_append_right _ _ _ _ (Nat.le_refl _),
      Nat.sub_self]
    rfl

theorem hash_eq_specHash (key : Key) (m : Nat) :
    SymTable_hash key m = specHash (key.map charToSize) m := by
  unfold SymTable_hash specHash
  rw [← foldl_eq_specAccum, List.foldl_map]
  rfl

theorem charToSize_eq_byteOf (c : Int) (h0 : 0 ≤ c) (h1 : c < 256) : charToSize c = byteOf c := by
  unfold charToSize byteOf SIZE_MOD
  rw [Int.emod_eq_of_lt h0 (by norm_num; omega), Int.emod_eq_of_lt h0 h1]

theorem charToSize_eq_convertedByte (c : Int) (h0 : -128 ≤ c) (h1 : c < 256) :
    charToSize c = convertedByte c := by
  unfold convertedByte
  by_cases hc : 0 ≤ c
  · rw [if_pos hc]
    exact charToSize_eq_byteOf c hc h1
  · rw [if_neg hc]
    unfold charToSize byteOf SIZE_MOD
    have e1 : c % ((2 ^ 64 : Nat) : Int) = c + 18446744073709551616 := by
      norm_num
      omega
    have e2 : c % 256 = c + 256 := by omega
    rw [e1, e2]
    norm_num
    omega

/-- C17, as amended: for every key and every bucket count `m > 0`,
`SymTable_hash(key, m)` is `H_n mod m` where `H_0 = 0` and
`H_(i+1) = (H_i * 65599 + (size_t)c_i) mod 2^64`, with `c_i` the `char` value
converted to `size_t`: the byte's value when the `char` value is not negative
(every byte below 128, and every byte where `char` is unsigned), and the byte's
value `+ 2^64 - 256` when it is negative (a byte of 128 or more where `char` is
signed).  The result is below `m`, so for every count of the schedule and every
well-formed table the bucket index is within the bucket array, and the empty key
hashes to 0. -/
theorem hash_spec (key : Key) (m : Nat) (hm : 0 < m) :
    ((∀ c ∈ key, -128 ≤ c ∧ c < 256) →
      SymTable_hash key m = specHash (key.map convertedByte) m) ∧
    ((∀ c ∈ key, 0 ≤ c ∧ c < 256) → SymTable_hash key m = specHash (key.map byteOf) m) ∧
    ((∀ c ∈ key, -128 ≤ c ∧ c < 0) →
      SymTable_hash key m = specHash (key.map (fun c => byteOf c + 2 ^ 64 - 256)) m) ∧
    SymTable_hash key m = specHash (key.map charToSize) m ∧
    SymTable_hash key m < m ∧
    (∀ i, i < numBucketCounts → SymTable_hash key (bucketCount i) < bucketCount i) ∧
    (∀ t, WF t → SymTable_hash key (bucketCount t.bucketIndex) < t.buckets.length) ∧
    SymTable_hash [] m = 0 := by
  refine ⟨?_, ?_, ?_, hash_eq_specHash key m, hash_lt key m hm,
    fun i hi => hash_lt key _ (bucketCount_pos i hi), fun t ht => wf_hash_lt ht key, ?_⟩
  · intro hc
    rw [hash_eq_specHash]
    congr 1
    apply List.map_congr_left
    intro c hcm
    exact charToSize_eq_convertedByte c (hc c hcm).1 (hc c hcm).2
  · intro hc
    rw [hash_eq_specHash]
    congr 1
    apply List.map_congr_left
    intro c hcm
    exact charToSize_eq_byteOf c (hc c hcm).1 (hc c hcm).2
  · intro hc
    have hmap : key.map charToSize = key.map (fun c => byteOf c + 2 ^ 64 - 256) := by
      apply List.map_congr_left
      intro c hcm
      have h1 := (hc c hcm).1
      have h2 := (hc c hcm).2
      rw [charToSize_eq_convertedByte c h1 (by omega)]
      unfold convertedByte
      rw [if_neg (by omega)]
    rw [hash_eq_specHash, hmap]
  · exact Nat.zero_mod m

/-- Witness for C17 as amended: the key of the two characters -1 (the byte 255
where `char` is signed) and 97, and 509 buckets; the first character adds
`255 + 2^64 - 256`, and the hash is 461. -/
theorem hash_spec_witness :
    SymTable_hash [-1, 97] 509 = specHash ([-1, 97].map convertedByte) 509 ∧
    [-1, 97].map convertedByte = [255 + 2 ^ 64 - 256, 97] ∧
    SymTable_hash [-1, 97] 509 = 461 ∧
    SymTable_hash [-1, 97] 509 < 509 :=
  ⟨(hash_spec [-1, 97] 509 (by decide)).1 (by decide), by decide, by decide,
    (hash_spec [-1, 97] 509 (by decide)).2.2.2.2.1⟩

/-- Counterexample to C17 as stated: the one-character key whose `char` value is
-1 (the byte 255 where `char` is signed).  The code adds `(size_t)(-1) = 2^64 - 1`
and returns 301 for 509 buckets; the recurrence over the byte's value gives 255. -/
theorem hash_not_byte_value :
    byteOf (-1) = 255 ∧
    charToSize (-1) = 2 ^ 64 - 1 ∧
    SymTable_hash [-1] 509 = 301 ∧
    specHash ([-1].map byteOf) 509 = 255 ∧
    SymTable_hash [-1] 509 ≠ specHash ([-1].map byteOf) 509 := by
  refine ⟨by decide, by decide, by decide, by decide, by decide⟩

/-! ## Growth trigger, degradation, `NULL` values -/

theorem put_bucketIndex_eq (a : Alloc) (t : SymTable) (k : Key) (v : Value) :
    (SymTable_put a t k v).2.bucketIndex =
      if t.length = bucketCount t.bucketIndex ∧ t.bucketIndex < 7 ∧ a.grow = true
      then t.bucketIndex + 1 else t.bucketIndex := by
  rw [put_bucketIndex]
  unfold grown
  by_cases hc : t.length = bucketCount t.bucketIndex
  · rw [if_pos hc]
    by_cases hlast : t.bucketIndex + 1 < numBucketCounts
    · cases hg : a.grow
      · rw [expand_of_fail, if_neg (fun hh => absurd hh.2.2 (by simp))]
      · rw [expand_grow_bucketIndex t hlast,
          if_pos ⟨hc, by rw [numBucketCounts_eq] at hlast; omega, rfl⟩]
    · rw [expand_of_last _ _ hlast, if_neg]
      rintro ⟨_, h7, _⟩
      rw [numBucketCounts_eq] at hlast
      omega
  · rw [if_neg hc, if_neg (fun hh => hc hh.1)]

/-- C18: on a well-formed table `SymTable_put` advances `bucketIndex` by exactly 1
when at entry `length == bucketCounts[bucketIndex]`, `bucketIndex < 7` and the new
array is allocated, and leaves it unchanged otherwise; `SymTable_replace` and
`SymTable_remove` keep it, and `SymTable_contains`, `SymTable_get` and
`SymTable_map` leave the whole table as it is; so over any sequence of calls
`bucketIndex` never decreases and stays within 0..7. -/
theorem growth_trigger (t : SymTable) (hwf : WF t) :
    (∀ a k v, (SymTable_put a t k v).2.bucketIndex =
      if t.length = bucketCount t.bucketIndex ∧ t.bucketIndex < 7 ∧ a.grow = true
      then t.bucketIndex + 1 else t.bucketIndex) ∧
    (∀ k v, (SymTable_replace t k v).2.bucketIndex = t.bucketIndex) ∧
    (∀ k, (SymTable_remove t k).2.bucketIndex = t.bucketIndex) ∧
    (∀ k, step t (.contains k) = t) ∧ (∀ k, step t (.get k) = t) ∧ (∀ x, step t (.map x) = t) ∧
    (∀ ops ops', (run t ops).bucketIndex ≤ (run t (ops ++ ops')).bucketIndex) ∧
    (∀ ops, t.bucketIndex ≤ (run t ops).bucketIndex ∧ (run t ops).bucketIndex ≤ 7) := by
  refine ⟨fun a k v => put_bucketIndex_eq a t k v, fun k v => replace_bucketIndex t k v,
    fun k => remove_bucketIndex t k, fun _ => rfl, fun _ => rfl, fun _ => rfl, ?_, ?_⟩
  · intro ops ops'
    rw [run_append]
    exact run_bucketIndex_le _ _
  · intro ops
    refine ⟨run_bucketIndex_le t ops, ?_⟩
    have := (run_wf hwf ops).1
    rw [numBucketCounts_eq] at this
    omega

/-- Witness for C18: the table after three puts. -/
theorem growth_trigger_witness :
    (SymTable_put Alloc.ok chainOfThree [97] 1).2.bucketIndex =
      (if chainOfThree.length = bucketCount chainOfThree.bucketIndex ∧
          chainOfThree.bucketIndex < 7 ∧ Alloc.ok.grow = true
        then chainOfThree.bucketIndex + 1 else chainOfThree.bucketIndex) ∧
    (run chainOfThree (fillOps 600)).bucketIndex ≤ 7 :=
  ⟨(growth_trigger chainOfThree (run_wf wf_new _)).1 Alloc.ok [97] 1,
    ((growth_trigger chainOfThree (run_wf wf_new _)).2.2.2.2.2.2.2 (fillOps 600)).2⟩

/-- C19, as amended: on a well-formed table with
`length == bucketCounts[bucketIndex]` whose `bucketIndex` is 7 or whose growth
allocation fails, `expand` leaves the table unchanged, and a put of an absent key
whose node and key allocations succeed still returns 1, increases the length by 1
beyond the capacity, keeps `bucketIndex`, makes the key retrievable and leaves
the lookups of every other key as they were. -/
theorem graceful_degradation (a : Alloc) (t : SymTable) (k : Key) (v : Value)
    (hwf : WF t) (hcap : t.length = bucketCount t.bucketIndex)
    (hno : t.bucketIndex = 7 ∨ a.grow = false)
    (habs : SymTable_contains t k = 0) (hnode : a.node = true) (hkey : a.keyCopy = true) :
    expand a.grow t = t ∧
    (SymTable_put a t k v).1 = 1 ∧
    SymTable_getLength (SymTable_put a t k v).2 = SymTable_getLength t + 1 ∧
    bucketCount (SymTable_put a t k v).2.bucketIndex < SymTable_getLength (SymTable_put a t k v).2 ∧
    (SymTable_put a t k v).2.bucketIndex = t.bucketIndex ∧
    (SymTable_put a t k v).2.buckets =
      t.buckets.set (SymTable_hash k (bucketCount t.bucketIndex))
        (⟨k, v⟩ :: t.buckets.getD (SymTable_hash k (bucketCount t.bucketIndex)) []) ∧
    SymTable_get (SymTable_put a t k v).2 k = v ∧
    SymTable_contains (SymTable_put a t k v).2 k = 1 ∧
    ∀ k', k' ≠ k →
      SymTable_get (SymTable_put a t k v).2 k' = SymTable_get t k' ∧
      SymTable_contains (SymTable_put a t k v).2 k' = SymTable_contains t k' := by
  have hexp : expand a.grow t = t := by
    rcases hno with h7 | hg
    · exact expand_of_last _ _ (by rw [h7, numBucketCounts_eq]; omega)
    · rw [hg]; exact expand_of_fail t
  have hg : grown a t = t := by
    unfold grown
    rw [if_pos hcap, hexp]
  have hput := put_absent a hwf k v habs hnode hkey
  rw [hg] at hput
  have h1 : (SymTable_put a t k v).1 = 1 := by rw [hput]
  have hl := put_one_lookup a hwf k v h1
  refine ⟨hexp, h1, ?_, ?_, ?_, ?_, hl.2, hl.1, fun k' hne => put_lookup_other a hwf k v k' hne⟩
  · rw [hput]; rfl
  · rw [hput]
    show bucketCount t.bucketIndex < t.length + 1
    omega
  · rw [hput]; rfl
  · rw [hput]; rfl

/-- Witness for C19: the table filled with 65521 keys has exhausted the schedule
(`bucketIndex` 7, capacity 65521); one more key is put. -/
theorem graceful_degradation_witness :
    (filled 65521).bucketIndex = 7 ∧
    expand true (filled 65521) = filled 65521 ∧
    (SymTable_put Alloc.ok (filled 65521) (fillKey 65521) 5).1 = 1 ∧
    SymTable_getLength (SymTable_put Alloc.ok (filled 65521) (fillKey 65521) 5).2
      = SymTable_getLength (filled 65521) + 1 ∧
    SymTable_get (SymTable_put Alloc.ok (filled 65521) (fillKey 65521) 5).2 (fillKey 65521) = 5 := by
  have hidx : (filled 65521).bucketIndex = 7 := (filled_all 65521).2.2.1.trans (by decide)
  have h := graceful_degradation Alloc.ok (filled 65521) (fillKey 65521) 5 (filled_all 65521).1
    (by rw [(filled_all 65521).2.1, hidx]; rfl) (Or.inl hidx)
    (filled_absent 65521 65521 (Nat.le_refl _)) rfl rfl
  exact ⟨hidx, h.1, h.2.1, h.2.2.1, h.2.2.2.2.2.2.1⟩

theorem fst_of_eq_pair {α β : Type} {p : α × β} {a : α} {b : β} (h : p = (a, b)) : p.1 = a := by
  rw [h]

theorem snd_of_eq_pair {α β : Type} {p : α × β} {a : α} {b : β} (h : p = (a, b)) : p.2 = b := by
  rw [h]

/-- Counterexample to C19 as stated: a put of an absent key on a table at its
capacity does not return 1 when the node or the key allocation fails.  On the
table filled with 509 keys (index 0, capacity 509) with the growth allocation and
the node allocation failing, and on the table filled with 65521 keys (index 7,
capacity 65521) with the key allocation failing, the put returns 0, the length
is unchanged and the key is still absent. -/
theorem degraded_put_can_fail :
    Reachable (filled 509) ∧
    (filled 509).length = bucketCount (filled 509).bucketIndex ∧
    SymTable_contains (filled 509) (fillKey 509) = 0 ∧
    (SymTable_put Alloc.noNode (filled 509) (fillKey 509) 5).1 = 0 ∧
    SymTable_getLength (SymTable_put Alloc.noNode (filled 509) (fillKey 509) 5).2
      = SymTable_getLength (filled 509) ∧
    SymTable_contains (SymTable_put Alloc.noNode (filled 509) (fillKey 509) 5).2
      (fillKey 509) = 0 ∧
    Reachable (filled 65521) ∧
    (filled 65521).bucketIndex = 7 ∧
    (filled 65521).length = bucketCount (filled 65521).bucketIndex ∧
    SymTable_contains (filled 65521) (fillKey 65521) = 0 ∧
    (SymTable_put Alloc.noKeyCopy (filled 65521) (fillKey 65521) 5).1 = 0 ∧
    SymTable_getLength (SymTable_put Alloc.noKeyCopy (filled 65521) (fillKey 65521) 5).2
      = SymTable_getLength (filled 65521) ∧
    SymTable_contains (SymTable_put Alloc.noKeyCopy (filled 65521) (fillKey 65521) 5).2
      (fillKey 65521) = 0 := by
  obtain ⟨hwf9, hlen9, hidx9, _⟩ := filled_all 509
  have hidx0 : (filled 509).bucketIndex = 0 := hidx9.trans (by decide)
  have hcap9 : (filled 509).length = bucketCount (filled 509).bucketIndex := by
    rw [hlen9, hidx0]; rfl
  have habs9 := filled_absent 509 509 (Nat.le_refl _)
  have hput9 := put_alloc_fail Alloc.noNode (filled 509) (fillKey 509) 5 (Or.inl rfl)
  have hg9 : grown Alloc.noNode (filled 509) = filled 509 := by
    unfold grown
    rw [if_pos hcap9]
    exact expand_of_fail _
  rw [hg9] at hput9
  obtain ⟨hwf7, hlen7, hidx7', _⟩ := filled_all 65521
  have hidx7 : (filled 65521).bucketIndex = 7 := hidx7'.trans (by decide)
  have hcap7 : (filled 65521).length = bucketCount (filled 65521).bucketIndex := by
    rw [hlen7, hidx7]; rfl
  have habs7 := filled_absent 65521 65521 (Nat.le_refl _)
  have hput7 := put_alloc_fail Alloc.noKeyCopy (filled 65521) (fillKey 65521) 5 (Or.inr rfl)
  have hg7 : grown Alloc.noKeyCopy (filled 65521) = filled 65521 := by
    unfold grown
    rw [if_pos hcap7]
    exact expand_of_last _ _ (by rw [hidx7]; decide)
  rw [hg7] at hput7
  have ht9 : (SymTable_put Alloc.noNode (filled 509) (fillKey 509) 5).2 = filled 509 :=
    snd_of_eq_pair hput9
  have ht7 : (SymTable_put Alloc.noKeyCopy (filled 65521) (fillKey 65521) 5).2 = filled 65521 :=
    snd_of_eq_pair hput7
  refine ⟨filled_reachable 509, hcap9, habs9, fst_of_eq_pair hput9, ?_, ?_,
    filled_reachable 65521, hidx7, hcap7, habs7, fst_of_eq_pair hput7, ?_, ?_⟩
  · rw [ht9]
  · rw [ht9]; exact habs9
  · rw [ht7]
  · rw [ht7]; exact habs7

theorem get_mem_or_null {t : SymTable} (k : Key) :
    SymTable_get t k = NULL ∨ (⟨k, SymTable_get t k⟩ : Node) ∈ entries t := by
  rcases contains_eq_zero_or_one t k with hc | hc
  · exact Or.inl (get_of_contains_zero t k hc)
  · exact Or.inr (mem_of_contains k hc)

/-- C20: `SymTable_put` accepts a `NULL` value, and after `put(k, NULL)` on a
fresh table `SymTable_contains(k)` returns 1 while `SymTable_get(k)`,
`SymTable_replace(k, v)` and `SymTable_remove(k)` return `NULL`, as they do for an
absent key; conversely, on a well-formed table in which every stored value is
not `NULL`, `SymTable_get(k)` is not `NULL` exactly when `SymTable_contains(k)`
returns 1. -/
theorem null_value_ambiguity (t : SymTable) (_hwf : WF t)
    (hnn : ∀ e ∈ entries t, e.value ≠ NULL) :
    (∀ k, SymTable_get t k ≠ NULL ↔ SymTable_contains t k = 1) ∧
    (SymTable_put Alloc.ok SymTable_new [97] NULL).1 = 1 ∧
    SymTable_contains nullBound [97] = 1 ∧
    SymTable_get nullBound [97] = NULL ∧
    (SymTable_replace nullBound [97] 5).1 = NULL ∧
    (SymTable_remove nullBound [97]).1 = NULL ∧
    SymTable_contains nullBound [98] = 0 ∧
    SymTable_get nullBound [98] = NULL ∧
    (SymTable_replace nullBound [98] 5).1 = NULL ∧
    (SymTable_remove nullBound [98]).1 = NULL := by
  refine ⟨?_, by decide, by decide, by decide, by decide, by decide, by decide, by decide,
    by decide, by decide⟩
  intro k
  constructor
  · intro hne
    rcases contains_eq_zero_or_one t k with hc | hc
    · exact absurd (get_of_contains_zero t k hc) hne
    · exact hc
  · intro hc
    exact hnn _ (mem_of_contains k hc)

/-- Witness for C20: the table holding "a" with the value 1. -/
theorem null_value_ambiguity_witness :
    (SymTable_get (SymTable_put Alloc.ok SymTable_new [97] 1).2 [97] ≠ NULL ↔
      SymTable_contains (SymTable_put Alloc.ok SymTable_new [97] 1).2 [97] = 1) ∧
    (SymTable_get (SymTable_put Alloc.ok SymTable_new [97] 1).2 [98] ≠ NULL ↔
      SymTable_contains (SymTable_put Alloc.ok SymTable_new [97] 1).2 [98] = 1) := by
  have hwf : WF (SymTable_put Alloc.ok SymTable_new [97] 1).2 := put_wf Alloc.ok wf_new [97] 1
  have hnn : ∀ e ∈ entries (SymTable_put Alloc.ok SymTable_new [97] 1).2, e.value ≠ NULL := by
    intro e he
    rw [put_absent Alloc.ok wf_new [97] 1 (contains_new _) rfl rfl] at he
    have hg : grown Alloc.ok SymTable_new = SymTable_new := by
      unfold grown
      rw [if_neg]
      show ¬ (0 : Nat) = 509
      decide
    rw [hg, linkHead_mem wf_new, entries_new] at he
    rcases he with rfl | he
    · decide
    · simp at he
  have h := null_value_ambiguity (SymTable_put Alloc.ok SymTable_new [97] 1).2 hwf hnn
  exact ⟨h.1 [97], h.1 [98]⟩

end SymTableHash
